import Mathlib

set_option maxHeartbeats 1000000

/-
Verification of the py-tools repository: two variants of a depth-limited
directory archiver (`Archivation/make_archive.py`, the earlier variant, and
`archiving/make_archive.py`, the later variant).

Modelling choices (shallow embedding):
* Python strings are modelled as `List Char` (`Str`), indexed by code point,
  which matches Python's `len`/slicing on the ASCII paths involved.
* The platform is POSIX: `os.sep = '/'`, and `os.path.*` are the `posixpath`
  implementations, transcribed below (`joinPath`, `basename`, `dirname`,
  `normpath`, `abspath`, `relpath`, `rstripSep` for `str.rstrip('/')`).
* The filesystem is a value: the source tree is a `DirTree` (`os.walk` order
  is the stored list order), and on-disk side effects act on an `FS` record
  of existing directory and regular-file paths (stored in absolute form).
* I/O failures are injected through an explicit `Fault` parameter naming the
  step that raises (`os.makedirs`, the `os.access` permission check,
  `zipfile.ZipFile` open, the i-th `archive.write`, or finalising/closing the
  archive).  `os.path.exists`/`os.remove` in the cleanup handler and `print`
  are modelled as non-failing.
* `datetime.now()` is an opaque `timestamp` parameter; `timedelta` durations
  are modelled at whole-second resolution by a `Nat`.
-/

abbrev Str := List Char

/-- POSIX path separator, `os.sep`. -/
def sep : Char := '/'

def dotStr : Str := ['.']

def dotdot : Str := ['.', '.']

/-- Number of separator occurrences, Python `s.count(os.sep)`. -/
def countSep (s : Str) : Nat := s.count sep

/-- posixpath.join restricted to two arguments, as used by the source. -/
def joinPath (a b : Str) : Str :=
  if b.take 1 = [sep] then b
  else if a = [] ∨ a.getLast? = some sep then a ++ b
  else a ++ sep :: b

/-- posixpath.basename: the part after the last separator. -/
def basename (p : Str) : Str := (p.reverse.takeWhile (fun c => c ≠ sep)).reverse

/-- posixpath.dirname: everything before the last separator, with trailing
separators stripped unless the head consists only of separators. -/
def dirname (p : Str) : Str :=
  let head := (p.reverse.dropWhile (fun c => c ≠ sep)).reverse
  if head ≠ [] ∧ head.any (fun c => c ≠ sep) then
    (head.reverse.dropWhile (fun c => c = sep)).reverse
  else head

/-- Python `s.rstrip('/')`. -/
def rstripSep (p : Str) : Str := (p.reverse.dropWhile (fun c => c = sep)).reverse

/-- posixpath.isabs. -/
def isabs (p : Str) : Bool := p.take 1 = [sep]

/-- Python `s.split('/')`: split on every separator, keeping empty chunks. -/
def splitSep : Str → List Str
  | [] => [[]]
  | c :: rest =>
      if c = sep then [] :: splitSep rest
      else
        match splitSep rest with
        | [] => [[c]]
        | r :: rs => (c :: r) :: rs

/-- Loop body of posixpath.normpath over the split components. -/
def normStep (initialSlashes : Nat) (acc : List Str) (comp : Str) : List Str :=
  if comp = [] ∨ comp = dotStr then acc
  else if comp ≠ dotdot ∨ (initialSlashes = 0 ∧ acc = []) ∨
      (acc ≠ [] ∧ acc.getLast? = some dotdot) then
    acc ++ [comp]
  else if acc ≠ [] then acc.dropLast
  else acc

/-- `'/'.join(components)`. -/
def joinSep : List Str → Str
  | [] => []
  | [x] => x
  | x :: y :: rest => x ++ sep :: joinSep (y :: rest)

/-- posixpath.normpath. -/
def normpath (p : Str) : Str :=
  if p = [] then dotStr
  else
    let initialSlashes : Nat :=
      if p.take 2 = [sep, sep] ∧ ¬ p.take 3 = [sep, sep, sep] then 2
      else if p.take 1 = [sep] then 1 else 0
    let newComps := (splitSep p).foldl (normStep initialSlashes) []
    let joined := List.replicate initialSlashes sep ++ joinSep newComps
    if joined = [] then dotStr else joined

/-- posixpath.abspath, with the process working directory made explicit. -/
def abspath (cwd p : Str) : Str :=
  if isabs p then normpath p else normpath (joinPath cwd p)

/-- Length of the longest common elementwise prefix (genericpath.commonprefix
on a pair of component lists). -/
def commonLen : List Str → List Str → Nat
  | a :: as, b :: bs => if a = b then commonLen as bs + 1 else 0
  | _, _ => 0

/-- posixpath.relpath, with the working directory explicit. -/
def relpath (cwd p start : Str) : Str :=
  let startList := (splitSep (abspath cwd start)).filter (fun c => c ≠ [])
  let pathList := (splitSep (abspath cwd p)).filter (fun c => c ≠ [])
  let i := commonLen startList pathList
  let relList := List.replicate (startList.length - i) dotdot ++ pathList.drop i
  match relList with
  | [] => dotStr
  | h :: t => t.foldl joinPath h

/-- Canonical absolute path built from a list of components:
`'/' + '/'.join(cs)`.  Hypotheses of the main theorems present paths in this
form (the image of `normpath` on clean absolute inputs). -/
def canonAbs (cs : List Str) : Str := sep :: joinSep cs

/-- Separator-prefixed join: `''` for no components, else `'/' + '/'.join(ys)`.
This is the shape of the part of a canonical path below some prefix; it is
only used to state lemmas and specifications. -/
def tailJoin (ys : List Str) : Str := if ys = [] then [] else sep :: joinSep ys

/-- A valid path component: nonempty, separator-free, not `.` or `..`. -/
def validName (s : Str) : Bool :=
  decide (s ≠ [] ∧ sep ∉ s ∧ s ≠ dotStr ∧ s ≠ dotdot)

/-- All components of the list are valid names. -/
def validComps (l : List Str) : Bool := l.all validName

/-
The source tree handed to `os.walk`.  `DirTree.node files subdirs` is one
directory: `files` are its regular-file names, `subdirs` its named
subdirectories, both in the order `os.scandir` reports them.
-/
mutual
inductive DirTree : Type where
  | node (files : List Str) (subdirs : SubdirList) : DirTree
inductive SubdirList : Type where
  | nil : SubdirList
  | cons (name : Str) (tree : DirTree) (rest : SubdirList) : SubdirList
end

/-- Names of the immediate subdirectories. -/
def subNames : SubdirList → List Str
  | .nil => []
  | .cons n _ rest => n :: subNames rest

/-- Regular-file names directly inside the root of the tree. -/
def topFiles : DirTree → List Str
  | .node files _ => files

/-
Well-formedness of a source tree: every entry name is a valid path
component, file names and subdirectory names are duplicate-free per
directory (as on a real filesystem).
-/
mutual
def wfDir : DirTree → Bool
  | .node files subdirs =>
      files.all validName && decide files.Nodup &&
        decide (subNames subdirs).Nodup && wfSubs subdirs
def wfSubs : SubdirList → Bool
  | .nil => true
  | .cons n t rest => validName n && wfDir t && wfSubs rest
end

/-
Relative component paths of all regular files (resp. all directories,
including the root) of a tree whose root sits at relative path `rel`, in
`os.walk` top-down order.  These are the specification-side enumerations the
traversal is compared against.
-/
mutual
def filesUnder (rel : List Str) : DirTree → List (List Str)
  | .node files subdirs => files.map (fun f => rel ++ [f]) ++ filesUnderL rel subdirs
def filesUnderL (rel : List Str) : SubdirList → List (List Str)
  | .nil => []
  | .cons n t rest => filesUnder (rel ++ [n]) t ++ filesUnderL rel rest
end

mutual
def dirsUnder (rel : List Str) : DirTree → List (List Str)
  | .node _ subdirs => rel :: dirsUnderL rel subdirs
def dirsUnderL (rel : List Str) : SubdirList → List (List Str)
  | .nil => []
  | .cons n t rest => dirsUnder (rel ++ [n]) t ++ dirsUnderL rel rest
end

/-
Body of `for root, dirs, files in os.walk(src)` in `do_archive` (identical in
both variants):

    current_depth = root[len(path):].count(os.sep)
    if current_depth < depth:
        for file in files:
            file_path = os.path.join(root, file)
            archive.write(file_path, os.path.relpath(file_path, path))
    else:
        dirs[:] = []      # prune: children are not walked

`archiveLoop` returns the `(file_path, arcname)` pairs written, in order;
clearing `dirs` is the `else` branch that stops the recursion.
-/
mutual
def archiveLoop (cwd : Str) (depth : Int) (src root : Str) : DirTree → List (Str × Str)
  | .node files subdirs =>
      if ((countSep (root.drop src.length) : Int)) < depth then
        files.map (fun f => (joinPath root f, relpath cwd (joinPath root f) src)) ++
          archiveLoopL cwd depth src root subdirs
      else []
def archiveLoopL (cwd : Str) (depth : Int) (src root : Str) : SubdirList → List (Str × Str)
  | .nil => []
  | .cons n t rest =>
      archiveLoop cwd depth src (joinPath root n) t ++ archiveLoopL cwd depth src root rest
end

/-
Directories yielded by `os.walk` under the same pruning: a directory is
yielded (scanned and listed) before the loop body decides whether to descend,
so the root of a pruned subtree still appears here.
-/
mutual
def walkVisited (depth : Int) (src root : Str) : DirTree → List Str
  | .node _ subdirs =>
      root ::
        (if ((countSep (root.drop src.length) : Int)) < depth then
          walkVisitedL depth src root subdirs
        else [])
def walkVisitedL (depth : Int) (src root : Str) : SubdirList → List Str
  | .nil => []
  | .cons n t rest =>
      walkVisited depth src (joinPath root n) t ++ walkVisitedL depth src root rest
end

/-- On-disk state: existing directories and existing regular files, stored as
absolute paths. -/
structure FS where
  dirs : List Str
  files : List Str
deriving DecidableEq

def FS.hasDir (fs : FS) (p : Str) : Bool := fs.dirs.contains p

def FS.hasFile (fs : FS) (p : Str) : Bool := fs.files.contains p

def FS.addDir (fs : FS) (p : Str) : FS := { fs with dirs := p :: fs.dirs }

/-- Effect of creating/truncating a file (ZipFile open in 'w' mode). -/
def FS.addFile (fs : FS) (p : Str) : FS :=
  { fs with files := if fs.files.contains p then fs.files else p :: fs.files }

/-- Effect of `os.remove`. -/
def FS.removeFile (fs : FS) (p : Str) : FS :=
  { fs with files := fs.files.filter (fun q => ¬ q == p) }

/-- Injected failure point: the step that raises an exception during a run. -/
inductive Fault where
  | makedirs
  | permission
  | openArchive
  | write (i : Nat)
  | closeArchive
deriving DecidableEq

/-- Observable result of one `do_archive` invocation: final disk state, the
exception escaping the call (if any), console output (final status or error
line), and the entries written into a surviving archive. -/
structure Outcome where
  fs : FS
  raised : Option Str
  printed : List Str
  archived : List (Str × Str)
deriving DecidableEq

def depthErrMsg : Str := "Depth must be at least 1".toList

def permErrMsg : Str := "Read permission denied for the source path".toList

def openErrMsg : Str := "could not open archive file".toList

def writeErrMsg : Str := "archive write failed".toList

def closeErrMsg : Str := "archive finalization failed".toList

def makedirsErrMsg : Str := "os.makedirs failed".toList

def unboundLocalMsg : Str :=
  "UnboundLocalError: local variable referenced before assignment: archive_path".toList

def errHead : Str := "Error occured: ".toList

def successHead : Str := "Archive create: ".toList

/-- Archive file name of the later variant:
`os.path.basename(src_path.rstrip(os.sep)) + "_{}".format(timestamp) + '.zip'`
(`src_path` already normalised at this point). -/
def laterArchiveName (src_path timestamp : Str) : Str :=
  basename (rstripSep src_path) ++ '_' :: timestamp ++ ".zip".toList

/-- Absolute location of the archive the later variant opens:
`os.path.join(output_dir, archive_name)` resolved against the cwd. -/
def laterArchiveAbs (cwd output_dir src_path timestamp : Str) : Str :=
  abspath cwd (joinPath output_dir (laterArchiveName src_path timestamp))

/-- Archive file name of the earlier variant, computed from the raw `path`
argument before normalisation: `os.path.basename(path.rstrip('/')) + '.zip'`. -/
def earlierArchiveName (pathRaw : Str) : Str :=
  basename (rstripSep pathRaw) ++ ".zip".toList

/-- Where the earlier variant's `ZipFile(archive_name, 'w')` actually opens
the archive: the bare name resolved against the current working directory. -/
def earlierOpenAbs (cwd pathRaw : Str) : Str :=
  abspath cwd (earlierArchiveName pathRaw)

/-- Path the earlier variant's error handler checks and deletes:
`os.path.join(os.path.dirname(path), archive_name)` resolved against cwd. -/
def earlierDeleteAbs (cwd pathRaw : Str) : Str :=
  abspath cwd (joinPath (dirname (normpath pathRaw)) (earlierArchiveName pathRaw))

/-
try-block of the later variant (src/archiving/make_archive.py lines 50-69):
depth validation, explicit permission check, archive open, depth-bounded walk
with per-file writes, implicit close.  Errors carry the reason and the disk
state at the point of raising.
-/
def tryLater (cwd : Str) (fs : FS) (tree : DirTree) (src_path : Str) (depth : Int)
    (fault : Option Fault) (archiveAbs : Str) :
    Except (Str × FS) (FS × List (Str × Str)) :=
  if depth < 1 then .error (depthErrMsg, fs)
  else if fault = some Fault.permission then .error (permErrMsg, fs)
  else if fault = some Fault.openArchive then .error (openErrMsg, fs)
  else
    let fs1 := fs.addFile archiveAbs
    let entries := archiveLoop cwd depth src_path src_path tree
    match fault with
    | some (Fault.write i) =>
        if i < entries.length then .error (writeErrMsg, fs1) else .ok (fs1, entries)
    | some Fault.closeArchive => .error (closeErrMsg, fs1)
    | _ => .ok (fs1, entries)

/-- Everything of the later variant's `do_archive` after the makedirs step:
name computation, the try-block and the `except Exception` handler
(cleanup of `archive_path` plus diagnostic print). -/
def afterMakedirsLater (cwd : Str) (fs : FS) (tree : DirTree) (src_path output_dir : Str)
    (depth : Int) (timestamp : Str) (fault : Option Fault) : Outcome :=
  let archive_name := laterArchiveName src_path timestamp
  let archiveAbs := laterArchiveAbs cwd output_dir src_path timestamp
  match tryLater cwd fs tree src_path depth fault archiveAbs with
  | .ok (fs2, entries) =>
      { fs := fs2, raised := none, printed := [successHead ++ archive_name],
        archived := entries }
  | .error (reason, fs2) =>
      { fs := if fs2.hasFile archiveAbs then fs2.removeFile archiveAbs else fs2,
        raised := none, printed := [errHead ++ reason], archived := [] }

/-
`do_archive(src_path, output_dir, depth)` of the later variant
(src/archiving/make_archive.py).  Both paths are normalised first; then —
still outside the try-block — the output directory is created when absent
(a failure there propagates, uncaught); everything else is handled inside
`afterMakedirsLater`.
-/
def doArchiveLater (cwd : Str) (fs : FS) (tree : DirTree) (srcRaw outRaw : Str)
    (depth : Int) (timestamp : Str) (fault : Option Fault) : Outcome :=
  let src_path := normpath srcRaw
  let output_dir := normpath outRaw
  let outAbs := abspath cwd output_dir
  if fs.hasDir outAbs then
    afterMakedirsLater cwd fs tree src_path output_dir depth timestamp fault
  else if fault = some Fault.makedirs then
    { fs := fs, raised := some makedirsErrMsg, printed := [], archived := [] }
  else
    afterMakedirsLater cwd (fs.addDir outAbs) tree src_path output_dir depth timestamp fault

/-
try-block of the earlier variant (src/Archivation/make_archive.py lines
34-63).  The Bool in the error payload records whether the local variable
`archive_path` (assigned only after the depth validation) was bound when the
exception was raised; the handler dereferences it unconditionally.
-/
def tryEarlier (cwd : Str) (fs : FS) (tree : DirTree) (pathNorm : Str) (depth : Int)
    (fault : Option Fault) (openAbs : Str) :
    Except (Str × Bool × FS) (FS × List (Str × Str)) :=
  if depth < 1 then .error (depthErrMsg, false, fs)
  else if fault = some Fault.openArchive then .error (openErrMsg, true, fs)
  else
    let fs1 := fs.addFile openAbs
    let entries := archiveLoop cwd depth pathNorm pathNorm tree
    match fault with
    | some (Fault.write i) =>
        if i < entries.length then .error (writeErrMsg, true, fs1) else .ok (fs1, entries)
    | some Fault.closeArchive => .error (closeErrMsg, true, fs1)
    | _ => .ok (fs1, entries)

/-
`do_archive(path, depth=10)` of the earlier variant
(src/Archivation/make_archive.py).  The archive name comes from the raw
argument, the archive is opened at that bare name (resolved in the cwd), and
the handler checks/deletes `os.path.join(os.path.dirname(path), archive_name)`
instead.  When the exception was raised before `archive_path` was assigned,
the handler itself raises UnboundLocalError, which propagates to the caller.
-/
def doArchiveEarlier (cwd : Str) (fs : FS) (tree : DirTree) (pathRaw : Str)
    (depth : Int) (fault : Option Fault) : Outcome :=
  let archive_name := earlierArchiveName pathRaw
  let pathNorm := normpath pathRaw
  let deleteAbs := earlierDeleteAbs cwd pathRaw
  let openAbs := earlierOpenAbs cwd pathRaw
  match tryEarlier cwd fs tree pathNorm depth fault openAbs with
  | .ok (fs2, entries) =>
      { fs := fs2, raised := none, printed := [successHead ++ archive_name],
        archived := entries }
  | .error (reason, bound, fs2) =>
      if bound then
        { fs := if fs2.hasFile deleteAbs then fs2.removeFile deleteAbs else fs2,
          raised := none, printed := [errHead ++ reason], archived := [] }
      else
        { fs := fs2, raised := some unboundLocalMsg, printed := [], archived := [] }

/-- Parsed command line of the earlier variant: options `--path` and `--depth`. -/
structure ArgsEarlier where
  path : Str
  depthArg : Int

/-- `main()` of the earlier variant: it parses the `--depth` option into
`args.depth` but then calls `do_archive(args.path)` without forwarding it,
so the callee's default `depth = 10` is always used. -/
def mainEarlier (cwd : Str) (fs : FS) (tree : DirTree) (args : ArgsEarlier)
    (fault : Option Fault) : Outcome :=
  doArchiveEarlier cwd fs tree args.path 10 fault

/-- Python `f"{n:02}"` for a nonnegative integer rendered by `natDecimal`. -/
def pad2 (s : Str) : Str := List.replicate (2 - s.length) '0' ++ s

/-- Decimal rendering of a natural number. -/
def natDecimal (n : Nat) : Str := (Nat.repr n).toList

/-
`print_delta_time` (identical in both variants), at whole-second resolution:

    hours, remainder = divmod(delta.total_seconds(), 3600)
    minutes, seconds = divmod(remainder, 60)
    return f"{int(hours):02}:{int(minutes):02}:{int(seconds):02}"
-/
def print_delta_time (totalSeconds : Nat) : Str :=
  let hours := totalSeconds / 3600
  let remainder := totalSeconds % 3600
  let minutes := remainder / 60
  let seconds := remainder % 60
  pad2 (natDecimal hours) ++ ':' :: pad2 (natDecimal minutes) ++ ':' :: pad2 (natDecimal seconds)

/-
Concrete sample data used by the witness and counterexample theorems.
`sampleTree` is the tree  root/{a, s/{b, d/{c}}}  (file `a` at depth 0,
`s/b` at depth 1, `s/d/c` at depth 2); `sampleShallowTree` is root/{a/{f}}.
-/
def sampleTree : DirTree :=
  .node [['a']]
    (.cons ['s'] (.node [['b']] (.cons ['d'] (.node [['c']] .nil) .nil)) .nil)

def sampleShallowTree : DirTree := .node [] (.cons ['a'] (.node [['f']] .nil) .nil)

def sampleCwd : Str := ['/', 'w']

def sampleSrc : Str := ['/', 'd', '/', 's']

def sampleFS : FS := { dirs := [['/', 'w'], ['/', 'd']], files := [] }

/-- Like `sampleFS`, but with a pre-existing file at `/d/s.zip` — the path the
earlier variant's error handler deletes when archiving `/d/s`. -/
def sampleFSPre : FS :=
  { dirs := [['/', 'w'], ['/', 'd']], files := [['/', 'd', '/', 's', '.', 'z', 'i', 'p']] }

-- ## Lemmas about the path-string operations

theorem validName_iff (s : Str) :
    validName s = true ↔ (s ≠ [] ∧ sep ∉ s ∧ s ≠ dotStr ∧ s ≠ dotdot) := by
  simp [validName]

theorem validComps_iff (l : List Str) :
    validComps l = true ↔ ∀ c ∈ l, validName c = true := by
  simp [validComps]

theorem joinSep_cons (x : Str) (ys : List Str) (h : ys ≠ []) :
    joinSep (x :: ys) = x ++ sep :: joinSep ys := by
  cases ys with
  | nil => exact absurd rfl h
  | cons y ys' => rfl

theorem joinSep_head_tailJoin (h : Str) (t : List Str) :
    joinSep (h :: t) = h ++ tailJoin t := by
  cases t with
  | nil => simp [joinSep, tailJoin]
  | cons y ys => simp [joinSep_cons h (y :: ys) (by simp), tailJoin]

theorem tailJoin_cons (y : Str) (ys : List Str) :
    tailJoin (y :: ys) = (sep :: y) ++ tailJoin ys := by
  simp [tailJoin, joinSep_head_tailJoin]

theorem tailJoin_append (xs ys : List Str) :
    tailJoin (xs ++ ys) = tailJoin xs ++ tailJoin ys := by
  induction xs with
  | nil => simp [tailJoin]
  | cons x xs ih => simp [tailJoin_cons, ih]

theorem canonAbs_eq_tailJoin (cs : List Str) (h : cs ≠ []) :
    canonAbs cs = tailJoin cs := by
  cases cs with
  | nil => exact absurd rfl h
  | cons c cs' => simp [canonAbs, tailJoin, joinSep_head_tailJoin]

theorem canonAbs_append (xs ys : List Str) (hx : xs ≠ []) :
    canonAbs (xs ++ ys) = canonAbs xs ++ tailJoin ys := by
  rw [canonAbs_eq_tailJoin (xs ++ ys) (by simp [hx]), canonAbs_eq_tailJoin xs hx,
    tailJoin_append]

theorem countSep_append (s t : Str) : countSep (s ++ t) = countSep s + countSep t := by
  simp [countSep]

theorem countSep_sepfree (s : Str) (h : sep ∉ s) : countSep s = 0 := by
  simp [countSep, List.count_eq_zero, h]

theorem countSep_tailJoin (ys : List Str) (h : ∀ y ∈ ys, sep ∉ y) :
    countSep (tailJoin ys) = ys.length := by
  induction ys with
  | nil => simp [tailJoin, countSep]
  | cons y ys ih =>
    rw [tailJoin_cons, countSep_append]
    have h1 : countSep (sep :: y) = 1 := by
      have := countSep_sepfree y (h y (by simp))
      simp [countSep, List.count_cons] at this ⊢
      simpa [countSep] using this
    rw [h1, ih (fun z hz => h z (by simp [hz]))]
    simp [List.length_cons]
    omega

theorem tailJoin_ne_nil (cs : List Str) (h : cs ≠ []) : tailJoin cs ≠ [] := by
  cases cs with
  | nil => exact absurd rfl h
  | cons c cs' => simp [tailJoin_cons]

theorem getLast?_sepfree_ne_sep (c : Str) (hne : c ≠ []) (hfree : sep ∉ c)
    (l : Str) : (l ++ c).getLast? ≠ some sep := by
  intro hlast
  have hmem : sep ∈ (l ++ c).getLast? := by rw [hlast]; rfl
  rw [List.getLast?_append_of_ne_nil l hne] at hmem
  exact hfree (List.mem_of_mem_getLast? hmem)

theorem getLast?_tailJoin_ne_sep (cs : List Str) (hv : validComps cs = true)
    (h : cs ≠ []) : (tailJoin cs).getLast? ≠ some sep := by
  induction cs with
  | nil => exact absurd rfl h
  | cons c cs' ih =>
    rw [tailJoin_cons]
    have hc := (validComps_iff _).mp hv c (by simp)
    rw [validName_iff] at hc
    cases cs' with
    | nil =>
      have := getLast?_sepfree_ne_sep c hc.1 hc.2.1 [sep]
      simpa [tailJoin] using this
    | cons c2 cs2 =>
      rw [List.getLast?_append_of_ne_nil _ (tailJoin_ne_nil _ (by simp))]
      exact ih (by
        rw [validComps_iff] at hv ⊢
        exact fun z hz => hv z (by simp [hz])) (by simp)

theorem getLast?_canonAbs_ne_sep (cs : List Str) (hv : validComps cs = true)
    (h : cs ≠ []) : (canonAbs cs).getLast? ≠ some sep := by
  rw [canonAbs_eq_tailJoin cs h]
  exact getLast?_tailJoin_ne_sep cs hv h

theorem take_one_sepfree (s : Str) (h : sep ∉ s) : ¬ s.take 1 = [sep] := by
  cases s with
  | nil => simp
  | cons c t =>
    simp only [List.take_succ_cons, List.take_zero]
    intro he
    exact h (by simp [List.cons_eq_cons.mp he |>.1])

theorem canonAbs_nil : canonAbs [] = [sep] := rfl

theorem joinPath_canonAbs (cs : List Str) (n : Str) (hv : validComps cs = true)
    (hn : sep ∉ n) (hne : n ≠ []) :
    joinPath (canonAbs cs) n = canonAbs (cs ++ [n]) := by
  cases cs with
  | nil =>
    rw [joinPath, if_neg (take_one_sepfree n hn), if_pos (Or.inr (by rw [canonAbs_nil]; rfl))]
    simp [canonAbs, joinSep]
  | cons c cs' =>
    rw [joinPath, if_neg (take_one_sepfree n hn), if_neg (by
      push_neg
      exact ⟨by simp [canonAbs], getLast?_canonAbs_ne_sep _ hv (by simp)⟩)]
    rw [canonAbs_append (c :: cs') [n] (by simp)]
    simp [tailJoin, joinSep]

theorem splitSep_sep_cons (t : Str) : splitSep (sep :: t) = [] :: splitSep t := by
  simp [splitSep]

theorem splitSep_ne_nil (s : Str) : splitSep s ≠ [] := by
  induction s with
  | nil => simp [splitSep]
  | cons c t ih =>
    by_cases hc : c = sep
    · simp [splitSep, hc]
    · simp only [splitSep, if_neg hc]
      cases h : splitSep t with
      | nil => simp
      | cons r rs => simp

theorem splitSep_sepfree (s : Str) (h : sep ∉ s) : splitSep s = [s] := by
  induction s with
  | nil => rfl
  | cons c t ih =>
    have hc : ¬ c = sep := fun he => h (by simp [he])
    rw [splitSep, if_neg hc, ih (fun hm => h (by simp [hm]))]

theorem splitSep_sepfree_append (s t : Str) (h : sep ∉ s) :
    splitSep (s ++ sep :: t) = s :: splitSep t := by
  induction s with
  | nil => simp [splitSep_sep_cons]
  | cons c s' ih =>
    have hc : ¬ c = sep := fun he => h (by simp [he])
    rw [List.cons_append, splitSep, if_neg hc, ih (fun hm => h (by simp [hm]))]

theorem splitSep_tailJoin (cs : List Str) (h : ∀ c ∈ cs, sep ∉ c) (hne : cs ≠ []) :
    splitSep (tailJoin cs) = [] :: cs := by
  induction cs with
  | nil => exact absurd rfl hne
  | cons c cs' ih =>
    rw [tailJoin_cons]
    cases cs' with
    | nil =>
      rw [show tailJoin ([] : List Str) = [] from rfl, List.append_nil,
        splitSep_sep_cons, splitSep_sepfree c (h c (by simp))]
    | cons c2 cs2 =>
      have ht := ih (fun z hz => h z (by simp [hz])) (by simp)
      cases htj : tailJoin (c2 :: cs2) with
      | nil => exact absurd htj (tailJoin_ne_nil _ (by simp))
      | cons d ds =>
        have hd : d = sep := by
          rw [tailJoin_cons] at htj
          exact (List.cons_eq_cons.mp htj).1.symm
        rw [List.cons_append, splitSep_sep_cons, hd,
          splitSep_sepfree_append c ds (h c (by simp))]
        rw [htj, hd] at ht
        rw [splitSep_sep_cons] at ht
        have := (List.cons_eq_cons.mp ht).2
        rw [this]

theorem splitSep_joinSep (cs : List Str) (h : ∀ c ∈ cs, sep ∉ c) (hne : cs ≠ []) :
    splitSep (joinSep cs) = cs := by
  have ht := splitSep_tailJoin cs h hne
  rw [tailJoin, if_neg hne, splitSep_sep_cons] at ht
  exact (List.cons_eq_cons.mp ht).2

theorem take_one_joinSep_ne_sep (cs : List Str) (hv : validComps cs = true) :
    ¬ (joinSep cs).take 1 = [sep] := by
  cases cs with
  | nil => simp [joinSep]
  | cons c cs' =>
    rw [joinSep_head_tailJoin]
    have hc := (validComps_iff _).mp hv c (by simp)
    rw [validName_iff] at hc
    cases hcc : c with
    | nil => exact absurd hcc hc.1
    | cons ch ct =>
      have hch : ch ≠ sep := fun he => hc.2.1 (by simp [hcc, he])
      simp [List.take_succ_cons, hch]

theorem foldl_normStep_clean (is : Nat) (cs : List Str)
    (h : ∀ c ∈ cs, c ≠ [] ∧ c ≠ dotStr ∧ c ≠ dotdot) :
    ∀ acc, cs.foldl (normStep is) acc = acc ++ cs := by
  induction cs with
  | nil => intro acc; simp
  | cons c cs' ih =>
    intro acc
    have hc := h c (by simp)
    rw [List.foldl_cons, normStep, if_neg (by push_neg; exact ⟨hc.1, hc.2.1⟩),
      if_pos (Or.inl hc.2.2), ih (fun z hz => h z (by simp [hz]))]
    simp

theorem normpath_canonAbs (cs : List Str) (hv : validComps cs = true) :
    normpath (canonAbs cs) = canonAbs cs := by
  cases hcs : cs with
  | nil => decide
  | cons c0 cs0 =>
  rw [← hcs]
  have hne : cs ≠ [] := by simp [hcs]
  have hp : canonAbs cs ≠ [] := by simp [canonAbs]
  have h2 : ¬ ((canonAbs cs).take 2 = [sep, sep] ∧
      ¬ (canonAbs cs).take 3 = [sep, sep, sep]) := by
    intro hcon
    apply take_one_joinSep_ne_sep cs hv
    have h21 := hcon.1
    rw [canonAbs, List.take_succ_cons] at h21
    exact (List.cons_eq_cons.mp h21).2
  have h1 : (canonAbs cs).take 1 = [sep] := by simp [canonAbs]
  have hvv := (validComps_iff _).mp hv
  have hsplit : splitSep (canonAbs cs) = [] :: cs := by
    rw [canonAbs, splitSep_sep_cons,
      splitSep_joinSep cs (fun z hz => ((validName_iff z).mp (hvv z hz)).2.1) hne]
  have hfold : ([] :: cs).foldl (normStep 1) [] = cs := by
    rw [List.foldl_cons, normStep, if_pos (Or.inl rfl),
      foldl_normStep_clean 1 cs (fun z hz => by
        have := (validName_iff z).mp (hvv z hz)
        exact ⟨this.1, this.2.2.1, this.2.2.2⟩) []]
    simp
  simp only [normpath, if_neg hp, if_neg h2, if_pos h1, hsplit, hfold]
  simp [canonAbs]

theorem isabs_canonAbs (cs : List Str) : isabs (canonAbs cs) = true := by
  simp [isabs, canonAbs]

theorem isabs_sepfree (s : Str) (h : sep ∉ s) : isabs s = false := by
  cases s with
  | nil => simp [isabs]
  | cons c t =>
    have : c ≠ sep := fun he => h (by simp [he])
    simp [isabs, List.take_succ_cons, this]

theorem abspath_canonAbs (cwd : Str) (cs : List Str) (hv : validComps cs = true) :
    abspath cwd (canonAbs cs) = canonAbs cs := by
  rw [abspath, if_pos (isabs_canonAbs cs)]
  exact normpath_canonAbs cs hv

theorem commonLen_self_append (l t : List Str) : commonLen l (l ++ t) = l.length := by
  induction l with
  | nil => simp [commonLen]
  | cons a as ih => simp [commonLen, ih]

theorem foldl_joinPath_comps (t : List Str) :
    ∀ acc : Str, acc ≠ [] → acc.getLast? ≠ some sep →
      (∀ c ∈ t, sep ∉ c ∧ c ≠ []) → t.foldl joinPath acc = acc ++ tailJoin t := by
  induction t with
  | nil =>
    intro acc _ _ _
    simp [tailJoin]
  | cons b t' ih =>
    intro acc hne hlast hv
    have hb := hv b (by simp)
    rw [List.foldl_cons, joinPath, if_neg (take_one_sepfree b hb.1),
      if_neg (by push_neg; exact ⟨hne, hlast⟩)]
    rw [ih (acc ++ sep :: b) (by simp)
      (by
        have he : acc ++ sep :: b = (acc ++ [sep]) ++ b := by simp
        rw [he]
        exact getLast?_sepfree_ne_sep b hb.2 hb.1 (acc ++ [sep]))
      (fun z hz => hv z (by simp [hz]))]
    rw [tailJoin_cons]
    simp

theorem filter_nonempty_valid (cs : List Str) (h : ∀ c ∈ cs, c ≠ []) :
    (([] : Str) :: cs).filter (fun c => c ≠ []) = cs := by
  rw [List.filter_cons, if_neg (by simp)]
  exact List.filter_eq_self.mpr (fun a ha => by simp [h a ha])

theorem relpath_canonAbs (cwd : Str) (xs f : List Str) (hxs : validComps xs = true)
    (hf : validComps f = true) (hxne : xs ≠ []) (hfne : f ≠ []) :
    relpath cwd (canonAbs (xs ++ f)) (canonAbs xs) = joinSep f := by
  have hvxf : validComps (xs ++ f) = true := by
    rw [validComps_iff] at hxs hf ⊢
    intro c hc
    rcases List.mem_append.mp hc with hcc | hcc
    · exact hxs c hcc
    · exact hf c hcc
  have hsplit1 : splitSep (canonAbs xs) = [] :: xs := by
    rw [canonAbs, splitSep_sep_cons, splitSep_joinSep xs
      (fun z hz => ((validName_iff z).mp ((validComps_iff xs).mp hxs z hz)).2.1) hxne]
  have hsplit2 : splitSep (canonAbs (xs ++ f)) = [] :: (xs ++ f) := by
    rw [canonAbs, splitSep_sep_cons, splitSep_joinSep (xs ++ f)
      (fun z hz => ((validName_iff z).mp ((validComps_iff _).mp hvxf z hz)).2.1)
      (by simp [hxne])]
  have hfil1 : (splitSep (abspath cwd (canonAbs xs))).filter (fun c => c ≠ []) = xs := by
    rw [abspath_canonAbs cwd xs hxs, hsplit1]
    exact filter_nonempty_valid xs
      (fun z hz => ((validName_iff z).mp ((validComps_iff xs).mp hxs z hz)).1)
  have hfil2 : (splitSep (abspath cwd (canonAbs (xs ++ f)))).filter (fun c => c ≠ []) =
      xs ++ f := by
    rw [abspath_canonAbs cwd _ hvxf, hsplit2]
    exact filter_nonempty_valid (xs ++ f)
      (fun z hz => ((validName_iff z).mp ((validComps_iff _).mp hvxf z hz)).1)
  simp only [relpath, hfil1, hfil2, commonLen_self_append, Nat.sub_self,
    List.replicate_zero, List.drop_left, List.nil_append]
  cases f with
  | nil => exact absurd rfl hfne
  | cons h t =>
    have hh := (validComps_iff _).mp hf h (by simp)
    rw [validName_iff] at hh
    have hlast : (h : Str).getLast? ≠ some sep := by
      intro hc
      exact hh.2.1 (List.mem_of_mem_getLast? (by rw [hc]; rfl))
    simp only []
    rw [foldl_joinPath_comps t h hh.1 hlast (fun z hz => by
      have := (validComps_iff _).mp hf z (by simp [hz])
      rw [validName_iff] at this
      exact ⟨this.2.1, this.1⟩)]
    rw [joinSep_head_tailJoin]

theorem sep_not_mem_basename (p : Str) : sep ∉ basename p := by
  intro h
  have := List.mem_takeWhile_imp (List.mem_reverse.mp h)
  simp at this

theorem takeWhile_sepfree_append (a t : Str) (h : sep ∉ a) :
    (a ++ sep :: t).takeWhile (fun c => c ≠ sep) = a := by
  induction a with
  | nil => rw [List.nil_append, List.takeWhile_cons, if_neg (by simp)]
  | cons x xs ih =>
    have hx : x ≠ sep := fun he => h (by simp [he])
    rw [List.cons_append, List.takeWhile_cons, if_pos (by simp [hx]),
      ih (fun hm => h (by simp [hm]))]

theorem dropWhile_sepfree_append (a t : Str) (h : sep ∉ a) :
    (a ++ sep :: t).dropWhile (fun c => c ≠ sep) = sep :: t := by
  induction a with
  | nil => rw [List.nil_append, List.dropWhile_cons, if_neg (by simp)]
  | cons x xs ih =>
    have hx : x ≠ sep := fun he => h (by simp [he])
    rw [List.cons_append, List.dropWhile_cons, if_pos (by simp [hx]),
      ih (fun hm => h (by simp [hm]))]

theorem basename_append_sepfree (l n : Str) (hn : sep ∉ n) :
    basename (l ++ sep :: n) = n := by
  rw [basename, List.reverse_append, List.reverse_cons, List.append_assoc,
    List.singleton_append,
    takeWhile_sepfree_append n.reverse l.reverse (by simp [hn])]
  simp

theorem tailJoin_single (n : Str) : tailJoin [n] = sep :: n := by
  simp [tailJoin, joinSep]

theorem canonAbs_snoc (xs : List Str) (n : Str) :
    canonAbs (xs ++ [n]) = (if xs = [] then [] else canonAbs xs) ++ sep :: n := by
  cases xs with
  | nil => simp [canonAbs, joinSep]
  | cons x xs' =>
    rw [canonAbs_append (x :: xs') [n] (by simp), tailJoin_single, if_neg (by simp)]

theorem basename_canonAbs (xs : List Str) (n : Str) (hn : sep ∉ n) :
    basename (canonAbs (xs ++ [n])) = n := by
  rw [canonAbs_snoc]
  exact basename_append_sepfree _ n hn

theorem dropWhile_eqsep_reverse (L : Str) (hne : L ≠ []) (h : L.getLast? ≠ some sep) :
    L.reverse.dropWhile (fun c => c = sep) = L.reverse := by
  cases hrev : L.reverse with
  | nil =>
    rw [List.reverse_eq_nil_iff] at hrev
    exact absurd hrev hne
  | cons c rest =>
    have hc : c ≠ sep := by
      intro he
      apply h
      rw [← List.head?_reverse, hrev, he]
      rfl
    simp [List.dropWhile_cons, hc]

theorem rstripSep_canonAbs (cs : List Str) (hv : validComps cs = true) (h : cs ≠ []) :
    rstripSep (canonAbs cs) = canonAbs cs := by
  rw [rstripSep, dropWhile_eqsep_reverse _ (by simp [canonAbs])
    (getLast?_canonAbs_ne_sep cs hv h)]
  simp

theorem any_ne_sep_canonAbs (cs : List Str) (hv : validComps cs = true) (h : cs ≠ []) :
    (canonAbs cs ++ [sep]).any (fun c => c ≠ sep) = true := by
  cases cs with
  | nil => exact absurd rfl h
  | cons c cs' =>
    have hc := (validComps_iff _).mp hv c (by simp)
    rw [validName_iff] at hc
    cases hcc : c with
    | nil => exact absurd hcc hc.1
    | cons ch ct =>
      have hch : ch ≠ sep := fun he => hc.2.1 (by simp [hcc, he])
      apply List.any_eq_true.mpr
      refine ⟨ch, List.mem_append.mpr (Or.inl ?_), by simp [hch]⟩
      rw [canonAbs, joinSep_head_tailJoin]
      simp

theorem dirname_canonAbs_snoc (xs : List Str) (n : Str) (hv : validComps xs = true)
    (hn : sep ∉ n) : dirname (canonAbs (xs ++ [n])) = canonAbs xs := by
  cases xs with
  | nil =>
    have hsnoc : canonAbs ([] ++ [n]) = sep :: n := by
      rw [canonAbs_snoc, if_pos rfl, List.nil_append]
    rw [hsnoc, dirname]
    have hhead : ((sep :: n).reverse.dropWhile (fun c => c ≠ sep)).reverse = [sep] := by
      rw [List.reverse_cons, show n.reverse ++ [sep] = n.reverse ++ sep :: [] from rfl,
        dropWhile_sepfree_append n.reverse [] (by simp [hn])]
      rfl
    simp only [hhead]
    rw [if_neg (by simp)]
    rfl
  | cons x xs' =>
    have hsnoc : canonAbs ((x :: xs') ++ [n]) = canonAbs (x :: xs') ++ sep :: n := by
      rw [canonAbs_snoc, if_neg (by simp)]
    rw [hsnoc, dirname]
    have hhead : ((canonAbs (x :: xs') ++ sep :: n).reverse.dropWhile
        (fun c => c ≠ sep)).reverse = canonAbs (x :: xs') ++ [sep] := by
      rw [List.reverse_append, List.reverse_cons, List.append_assoc, List.singleton_append,
        dropWhile_sepfree_append n.reverse _ (by simp [hn])]
      simp
    simp only [hhead]
    rw [if_pos ⟨by simp, any_ne_sep_canonAbs (x :: xs') hv (by simp)⟩]
    rw [List.reverse_append, show ([sep] : Str).reverse = [sep] from rfl,
      List.singleton_append, List.dropWhile_cons]
    rw [if_pos (by simp)]
    rw [dropWhile_eqsep_reverse _ (by simp [canonAbs])
      (getLast?_canonAbs_ne_sep (x :: xs') hv (by simp))]
    simp

theorem validComps_snoc (cs : List Str) (n : Str) (hv : validComps cs = true)
    (hn : validName n = true) : validComps (cs ++ [n]) = true := by
  rw [validComps_iff] at hv ⊢
  intro c hc
  rcases List.mem_append.mp hc with h | h
  · exact hv c h
  · rw [List.mem_singleton.mp h]
    exact hn

theorem validComps_append (xs ys : List Str) (hx : validComps xs = true)
    (hy : validComps ys = true) : validComps (xs ++ ys) = true := by
  rw [validComps_iff] at hx hy ⊢
  intro c hc
  rcases List.mem_append.mp hc with h | h
  · exact hx c h
  · exact hy c h

theorem validName_of_sepfree_long (s : Str) (hfree : sep ∉ s) (hlen : 3 ≤ s.length) :
    validName s = true := by
  rw [validName_iff]
  refine ⟨?_, hfree, ?_, ?_⟩
  · intro he
    rw [he] at hlen
    simp at hlen
  · intro he
    rw [he] at hlen
    simp [dotStr] at hlen
  · intro he
    rw [he] at hlen
    simp [dotdot] at hlen

theorem sep_not_mem_zip : sep ∉ ".zip".toList := by decide

theorem sep_not_mem_earlierArchiveName (pathRaw : Str) :
    sep ∉ earlierArchiveName pathRaw := by
  rw [earlierArchiveName]
  intro hm
  rcases List.mem_append.mp hm with h | h
  · exact sep_not_mem_basename _ h
  · exact sep_not_mem_zip h

theorem validName_earlierArchiveName (pathRaw : Str) :
    validName (earlierArchiveName pathRaw) = true := by
  apply validName_of_sepfree_long _ (sep_not_mem_earlierArchiveName pathRaw)
  rw [earlierArchiveName, List.length_append]
  have hz : (".zip".toList : Str).length = 4 := by decide
  omega

theorem sep_not_mem_laterArchiveName (src ts : Str) (hts : sep ∉ ts) :
    sep ∉ laterArchiveName src ts := by
  rw [laterArchiveName]
  intro hm
  rcases List.mem_append.mp hm with h | h
  · rcases List.mem_append.mp h with h1 | h1
    · exact sep_not_mem_basename _ h1
    · rcases List.mem_cons.mp h1 with h2 | h2
      · exact absurd h2.symm (by decide)
      · exact hts h2
  · exact sep_not_mem_zip h

theorem validName_laterArchiveName (src ts : Str) (hts : sep ∉ ts) :
    validName (laterArchiveName src ts) = true := by
  apply validName_of_sepfree_long _ (sep_not_mem_laterArchiveName src ts hts)
  have hz : (".zip".toList : Str).length = 4 := by decide
  simp [laterArchiveName]
  omega

theorem abspath_canon_name (ccs : List Str) (nm : Str) (hv : validComps ccs = true)
    (hnm : validName nm = true) :
    abspath (canonAbs ccs) nm = canonAbs (ccs ++ [nm]) := by
  have h := (validName_iff nm).mp hnm
  rw [abspath, if_neg (by rw [isabs_sepfree nm h.2.1]; simp),
    joinPath_canonAbs ccs nm hv h.2.1 h.1]
  exact normpath_canonAbs _ (validComps_snoc ccs nm hv hnm)

-- ## Lemmas about the filesystem operations

theorem hasFile_iff (fs : FS) (p : Str) : fs.hasFile p = true ↔ p ∈ fs.files := by
  rw [FS.hasFile]
  exact List.elem_iff

theorem addFile_files (fs : FS) (p : Str) :
    (fs.addFile p).files = if fs.files.contains p then fs.files else p :: fs.files := rfl

theorem removeFile_files (fs : FS) (p : Str) :
    (fs.removeFile p).files = fs.files.filter (fun q => ¬ q == p) := rfl

theorem addFile_hasFile_self (fs : FS) (p : Str) : (fs.addFile p).hasFile p = true := by
  rw [hasFile_iff, addFile_files]
  split
  · rename_i hcond
    exact List.elem_iff.mp hcond
  · exact List.mem_cons_self p _

theorem addFile_hasFile_mono (fs : FS) (p q : Str) (h : fs.hasFile q = true) :
    (fs.addFile p).hasFile q = true := by
  rw [hasFile_iff] at h
  rw [hasFile_iff, addFile_files]
  split
  · exact h
  · exact List.mem_cons_of_mem p h

theorem removeFile_hasFile_self (fs : FS) (p : Str) :
    (fs.removeFile p).hasFile p = false := by
  cases hb : (fs.removeFile p).hasFile p with
  | false => rfl
  | true =>
    rw [hasFile_iff, removeFile_files] at hb
    have h2 := (List.mem_filter.mp hb).2
    simp at h2

theorem removeFile_hasFile_other (fs : FS) (p q : Str) (hne : q ≠ p) :
    (fs.removeFile p).hasFile q = fs.hasFile q := by
  cases hq : fs.hasFile q with
  | true =>
    rw [hasFile_iff] at hq
    rw [hasFile_iff, removeFile_files]
    exact List.mem_filter.mpr ⟨hq, by simp [hne]⟩
  | false =>
    cases hr : (fs.removeFile p).hasFile q with
    | false => rfl
    | true =>
      rw [hasFile_iff, removeFile_files] at hr
      have h1 := (List.mem_filter.mp hr).1
      rw [← hasFile_iff] at h1
      simp [h1] at hq

-- ## Lemmas about the traversal

theorem wfDir_node (files : List Str) (subdirs : SubdirList)
    (h : wfDir (.node files subdirs) = true) :
    (∀ f ∈ files, validName f = true) ∧ files.Nodup ∧
      (subNames subdirs).Nodup ∧ wfSubs subdirs = true := by
  simp only [wfDir, Bool.and_eq_true, decide_eq_true_eq, List.all_eq_true] at h
  exact ⟨h.1.1.1, h.1.1.2, h.1.2, h.2⟩

theorem wfSubs_cons (n : Str) (t : DirTree) (rest : SubdirList)
    (h : wfSubs (.cons n t rest) = true) :
    validName n = true ∧ wfDir t = true ∧ wfSubs rest = true := by
  simp only [wfSubs, Bool.and_eq_true] at h
  exact ⟨h.1.1, h.1.2, h.2⟩

theorem depth_canonAbs (scs rel : List Str) (hne : scs ≠ [])
    (hrel : validComps rel = true) :
    countSep ((canonAbs (scs ++ rel)).drop (canonAbs scs).length) = rel.length := by
  rw [canonAbs_append scs rel hne, List.drop_left]
  exact countSep_tailJoin rel
    (fun y hy => ((validName_iff y).mp ((validComps_iff rel).mp hrel y hy)).2.1)

mutual
theorem filesUnder_shape (t : DirTree) (rel : List Str) :
    ∀ f ∈ filesUnder rel t, ∃ g, g ≠ [] ∧ f = rel ++ g := by
  cases t with
  | node files subdirs =>
    intro f hf
    simp only [filesUnder] at hf
    rcases List.mem_append.mp hf with h | h
    · rcases List.mem_map.mp h with ⟨x, _, hx⟩
      exact ⟨[x], by simp, hx.symm⟩
    · rcases filesUnderL_shape subdirs rel f h with ⟨n, g, _, hne, he⟩
      exact ⟨n :: g, by simp, he⟩
theorem filesUnderL_shape (subs : SubdirList) (rel : List Str) :
    ∀ f ∈ filesUnderL rel subs, ∃ n g, n ∈ subNames subs ∧ g ≠ [] ∧ f = rel ++ n :: g := by
  cases subs with
  | nil =>
    intro f hf
    simp [filesUnderL] at hf
  | cons n t rest =>
    intro f hf
    simp only [filesUnderL] at hf
    rcases List.mem_append.mp hf with h | h
    · rcases filesUnder_shape t (rel ++ [n]) f h with ⟨g, hgne, he⟩
      exact ⟨n, g, by simp [subNames], hgne, by rw [he, List.append_assoc]; rfl⟩
    · rcases filesUnderL_shape rest rel f h with ⟨n', g, hn', hgne, he⟩
      exact ⟨n', g, by simp [subNames, hn'], hgne, he⟩
end

mutual
theorem dirsUnder_shape (t : DirTree) (rel : List Str) :
    ∀ d ∈ dirsUnder rel t, ∃ g, d = rel ++ g := by
  cases t with
  | node files subdirs =>
    intro d hd
    simp only [dirsUnder] at hd
    rcases List.mem_cons.mp hd with h | h
    · exact ⟨[], by simp [h]⟩
    · rcases dirsUnderL_shape subdirs rel d h with ⟨n, g, _, he⟩
      exact ⟨n :: g, he⟩
theorem dirsUnderL_shape (subs : SubdirList) (rel : List Str) :
    ∀ d ∈ dirsUnderL rel subs, ∃ n g, n ∈ subNames subs ∧ d = rel ++ n :: g := by
  cases subs with
  | nil =>
    intro d hd
    simp [dirsUnderL] at hd
  | cons n t rest =>
    intro d hd
    simp only [dirsUnderL] at hd
    rcases List.mem_append.mp hd with h | h
    · rcases dirsUnder_shape t (rel ++ [n]) d h with ⟨g, he⟩
      exact ⟨n, g, by simp [subNames], by rw [he, List.append_assoc]; rfl⟩
    · rcases dirsUnderL_shape rest rel d h with ⟨n', g, hn', he⟩
      exact ⟨n', g, by simp [subNames, hn'], he⟩
end

mutual
theorem archiveLoop_spec (cwd : Str) (depth : Int) (scs : List Str)
    (hv : validComps scs = true) (hne : scs ≠ []) (t : DirTree) (rel : List Str)
    (hrel : validComps rel = true) (hw : wfDir t = true) :
    archiveLoop cwd depth (canonAbs scs) (canonAbs (scs ++ rel)) t =
      ((filesUnder rel t).filter (fun f => ((f.length : Int) - 1) < depth)).map
        (fun f => (canonAbs (scs ++ f), joinSep f)) := by
  cases t with
  | node files subdirs =>
    obtain ⟨hfv, _, _, hws⟩ := wfDir_node files subdirs hw
    simp only [archiveLoop, filesUnder]
    rw [depth_canonAbs scs rel hne hrel]
    by_cases hd : ((rel.length : Int)) < depth
    · rw [if_pos hd, List.filter_append, List.map_append]
      congr 1
      · have hkeep : (files.map (fun f => rel ++ [f])).filter
            (fun f => ((f.length : Int) - 1) < depth) = files.map (fun f => rel ++ [f]) := by
          apply List.filter_eq_self.mpr
          intro a ha
          rcases List.mem_map.mp ha with ⟨x, _, hx⟩
          subst hx
          simp only [decide_eq_true_eq, List.length_append, List.length_cons,
            List.length_nil]
          push_cast
          omega
        rw [hkeep, List.map_map]
        apply List.map_congr_left
        intro f hf
        have hfval := (validName_iff f).mp (hfv f hf)
        simp only [Function.comp]
        rw [joinPath_canonAbs (scs ++ rel) f (validComps_append scs rel hv hrel)
          hfval.2.1 hfval.1, List.append_assoc,
          relpath_canonAbs cwd scs (rel ++ [f]) hv
            (validComps_snoc rel f hrel (hfv f hf)) hne (by simp)]
      · exact archiveLoopL_spec cwd depth scs hv hne subdirs rel hrel hws
    · rw [if_neg hd]
      symm
      rw [List.map_eq_nil_iff, List.filter_eq_nil_iff]
      intro f hf
      simp only [decide_eq_true_eq]
      rcases List.mem_append.mp hf with h | h
      · rcases List.mem_map.mp h with ⟨x, _, hx⟩
        subst hx
        simp only [List.length_append, List.length_cons, List.length_nil]
        push_cast
        omega
      · rcases filesUnderL_shape subdirs rel f h with ⟨n, g, _, hgne, he⟩
        subst he
        have hg1 : 1 ≤ g.length := by
          cases g with
          | nil => exact absurd rfl hgne
          | cons a b => simp
        simp only [List.length_append, List.length_cons]
        push_cast
        omega
theorem archiveLoopL_spec (cwd : Str) (depth : Int) (scs : List Str)
    (hv : validComps scs = true) (hne : scs ≠ []) (subs : SubdirList) (rel : List Str)
    (hrel : validComps rel = true) (hw : wfSubs subs = true) :
    archiveLoopL cwd depth (canonAbs scs) (canonAbs (scs ++ rel)) subs =
      ((filesUnderL rel subs).filter (fun f => ((f.length : Int) - 1) < depth)).map
        (fun f => (canonAbs (scs ++ f), joinSep f)) := by
  cases subs with
  | nil => simp [archiveLoopL, filesUnderL]
  | cons n t rest =>
    obtain ⟨hnv, hwt, hwr⟩ := wfSubs_cons n t rest hw
    have hnval := (validName_iff n).mp hnv
    simp only [archiveLoopL, filesUnderL]
    rw [List.filter_append, List.map_append]
    congr 1
    · rw [joinPath_canonAbs (scs ++ rel) n (validComps_append scs rel hv hrel)
        hnval.2.1 hnval.1, List.append_assoc]
      exact archiveLoop_spec cwd depth scs hv hne t (rel ++ [n])
        (validComps_snoc rel n hrel hnv) hwt
    · exact archiveLoopL_spec cwd depth scs hv hne rest rel hrel hwr
end

mutual
theorem walkVisited_spec (depth : Int) (scs : List Str)
    (hv : validComps scs = true) (hne : scs ≠ []) (t : DirTree) (rel : List Str)
    (hrel : validComps rel = true) (hw : wfDir t = true)
    (hbound : (rel.length : Int) ≤ depth) :
    walkVisited depth (canonAbs scs) (canonAbs (scs ++ rel)) t =
      ((dirsUnder rel t).filter (fun d => ((d.length : Int)) ≤ depth)).map
        (fun d => canonAbs (scs ++ d)) := by
  cases t with
  | node files subdirs =>
    obtain ⟨_, _, _, hws⟩ := wfDir_node files subdirs hw
    simp only [walkVisited, dirsUnder]
    rw [depth_canonAbs scs rel hne hrel]
    have hfc : List.filter (fun d => ((d.length : Int)) ≤ depth)
        (rel :: dirsUnderL rel subdirs) =
        rel :: (dirsUnderL rel subdirs).filter (fun d => ((d.length : Int)) ≤ depth) := by
      rw [List.filter_cons, if_pos (by
        simp only [decide_eq_true_eq]
        exact hbound)]
    rw [hfc, List.map_cons]
    by_cases hd : ((rel.length : Int)) < depth
    · rw [if_pos hd]
      congr 1
      exact walkVisitedL_spec depth scs hv hne subdirs rel hrel hws hd
    · rw [if_neg hd]
      congr 1
      symm
      rw [List.map_eq_nil_iff, List.filter_eq_nil_iff]
      intro d hdm
      simp only [decide_eq_true_eq]
      rcases dirsUnderL_shape subdirs rel d hdm with ⟨n, g, _, he⟩
      subst he
      simp only [List.length_append, List.length_cons]
      push_cast
      omega
theorem walkVisitedL_spec (depth : Int) (scs : List Str)
    (hv : validComps scs = true) (hne : scs ≠ []) (subs : SubdirList) (rel : List Str)
    (hrel : validComps rel = true) (hw : wfSubs subs = true)
    (hbound : (rel.length : Int) < depth) :
    walkVisitedL depth (canonAbs scs) (canonAbs (scs ++ rel)) subs =
      ((dirsUnderL rel subs).filter (fun d => ((d.length : Int)) ≤ depth)).map
        (fun d => canonAbs (scs ++ d)) := by
  cases subs with
  | nil => simp [walkVisitedL, dirsUnderL]
  | cons n t rest =>
    obtain ⟨hnv, hwt, hwr⟩ := wfSubs_cons n t rest hw
    have hnval := (validName_iff n).mp hnv
    simp only [walkVisitedL, dirsUnderL]
    rw [List.filter_append, List.map_append]
    congr 1
    · rw [joinPath_canonAbs (scs ++ rel) n (validComps_append scs rel hv hrel)
        hnval.2.1 hnval.1, List.append_assoc]
      exact walkVisited_spec depth scs hv hne t (rel ++ [n])
        (validComps_snoc rel n hrel hnv) hwt (by
          simp only [List.length_append, List.length_cons, List.length_nil]
          push_cast
          omega)
    · exact walkVisitedL_spec depth scs hv hne rest rel hrel hwr hbound
end

mutual
theorem filesUnder_valid (t : DirTree) (rel : List Str) (hrel : validComps rel = true)
    (hw : wfDir t = true) :
    ∀ f ∈ filesUnder rel t, validComps f = true ∧ f ≠ [] := by
  cases t with
  | node files subdirs =>
    obtain ⟨hfv, _, _, hws⟩ := wfDir_node files subdirs hw
    intro f hf
    simp only [filesUnder] at hf
    rcases List.mem_append.mp hf with h | h
    · rcases List.mem_map.mp h with ⟨x, hx, he⟩
      subst he
      exact ⟨validComps_snoc rel x hrel (hfv x hx), by simp⟩
    · exact filesUnderL_valid subdirs rel hrel hws f h
theorem filesUnderL_valid (subs : SubdirList) (rel : List Str)
    (hrel : validComps rel = true) (hw : wfSubs subs = true) :
    ∀ f ∈ filesUnderL rel subs, validComps f = true ∧ f ≠ [] := by
  cases subs with
  | nil =>
    intro f hf
    simp [filesUnderL] at hf
  | cons n t rest =>
    obtain ⟨hnv, hwt, hwr⟩ := wfSubs_cons n t rest hw
    intro f hf
    simp only [filesUnderL] at hf
    rcases List.mem_append.mp hf with h | h
    · exact filesUnder_valid t (rel ++ [n]) (validComps_snoc rel n hrel hnv) hwt f h
    · exact filesUnderL_valid rest rel hrel hwr f h
end

mutual
theorem filesUnder_nodup (t : DirTree) (rel : List Str) (hw : wfDir t = true) :
    (filesUnder rel t).Nodup := by
  cases t with
  | node files subdirs =>
    obtain ⟨_, hfn, hsn, hws⟩ := wfDir_node files subdirs hw
    simp only [filesUnder]
    apply List.Nodup.append
    · exact hfn.map_on (fun x _ y _ he =>
        List.cons_eq_cons.mp (List.append_cancel_left he) |>.1)
    · exact filesUnderL_nodup subdirs rel hsn hws
    · intro a ha hb
      rcases List.mem_map.mp ha with ⟨x, _, hx⟩
      rcases filesUnderL_shape subdirs rel a hb with ⟨n, g, _, hgne, he⟩
      rw [← hx] at he
      have hlen := congrArg List.length he
      simp only [List.length_append, List.length_cons, List.length_nil] at hlen
      have hg1 : 1 ≤ g.length := by
        cases g with
        | nil => exact absurd rfl hgne
        | cons a b => simp
      omega
theorem filesUnderL_nodup (subs : SubdirList) (rel : List Str)
    (hsn : (subNames subs).Nodup) (hw : wfSubs subs = true) :
    (filesUnderL rel subs).Nodup := by
  cases subs with
  | nil => simp [filesUnderL]
  | cons n t rest =>
    obtain ⟨hnv, hwt, hwr⟩ := wfSubs_cons n t rest hw
    have hsn' : (subNames rest).Nodup := (List.nodup_cons.mp hsn).2
    have hnmem : n ∉ subNames rest := (List.nodup_cons.mp hsn).1
    simp only [filesUnderL]
    apply List.Nodup.append
    · exact filesUnder_nodup t (rel ++ [n]) hwt
    · exact filesUnderL_nodup rest rel hsn' hwr
    · intro a ha hb
      rcases filesUnder_shape t (rel ++ [n]) a ha with ⟨g, _, he1⟩
      rcases filesUnderL_shape rest rel a hb with ⟨n', g', hn', _, he2⟩
      rw [he1] at he2
      rw [List.append_assoc] at he2
      have := List.append_cancel_left he2
      have hnn : n = n' := (List.cons_eq_cons.mp this).1
      rw [hnn] at hnmem
      exact hnmem hn'
end

theorem joinSep_inj (a b : List Str) (ha : validComps a = true) (hb : validComps b = true)
    (hane : a ≠ []) (hbne : b ≠ []) (he : joinSep a = joinSep b) : a = b := by
  have h1 := splitSep_joinSep a
    (fun z hz => ((validName_iff z).mp ((validComps_iff a).mp ha z hz)).2.1) hane
  have h2 := splitSep_joinSep b
    (fun z hz => ((validName_iff z).mp ((validComps_iff b).mp hb z hz)).2.1) hbne
  rw [← h1, ← h2, he]

theorem arcnames_nodup (t : DirTree) (hw : wfDir t = true) (P : List Str → Bool) :
    (((filesUnder [] t).filter P).map joinSep).Nodup := by
  apply List.Nodup.map_on
  · intro x hx y hy he
    have hxm := (List.mem_filter.mp hx).1
    have hym := (List.mem_filter.mp hy).1
    have hxv := filesUnder_valid t [] rfl hw x hxm
    have hyv := filesUnder_valid t [] rfl hw y hym
    exact joinSep_inj x y hxv.1 hyv.1 hxv.2 hyv.2 he
  · exact (filesUnder_nodup t [] hw).filter P

-- ## Reduction lemmas for the two do_archive models

theorem tryEarlier_none (cwd : Str) (fs : FS) (tree : DirTree) (pathNorm : Str)
    (depth : Int) (openAbs : Str) (hd : 1 ≤ depth) :
    tryEarlier cwd fs tree pathNorm depth none openAbs =
      .ok (fs.addFile openAbs, archiveLoop cwd depth pathNorm pathNorm tree) := by
  rw [tryEarlier, if_neg (by omega), if_neg (by simp)]

theorem doArchiveEarlier_success (cwd : Str) (fs : FS) (tree : DirTree) (pathRaw : Str)
    (depth : Int) (hd : 1 ≤ depth) :
    doArchiveEarlier cwd fs tree pathRaw depth none =
      { fs := fs.addFile (earlierOpenAbs cwd pathRaw), raised := none,
        printed := [successHead ++ earlierArchiveName pathRaw],
        archived := archiveLoop cwd depth (normpath pathRaw) (normpath pathRaw) tree } := by
  rw [doArchiveEarlier, tryEarlier_none cwd fs tree (normpath pathRaw) depth
    (earlierOpenAbs cwd pathRaw) hd]

theorem tryEarlier_close (cwd : Str) (fs : FS) (tree : DirTree) (pathNorm : Str)
    (depth : Int) (openAbs : Str) (hd : 1 ≤ depth) :
    tryEarlier cwd fs tree pathNorm depth (some Fault.closeArchive) openAbs =
      .error (closeErrMsg, true, fs.addFile openAbs) := by
  rw [tryEarlier, if_neg (by omega), if_neg (by simp)]

theorem doArchiveEarlier_close (cwd : Str) (fs : FS) (tree : DirTree) (pathRaw : Str)
    (depth : Int) (hd : 1 ≤ depth) :
    doArchiveEarlier cwd fs tree pathRaw depth (some Fault.closeArchive) =
      { fs := if (fs.addFile (earlierOpenAbs cwd pathRaw)).hasFile
                  (earlierDeleteAbs cwd pathRaw)
              then (fs.addFile (earlierOpenAbs cwd pathRaw)).removeFile
                  (earlierDeleteAbs cwd pathRaw)
              else fs.addFile (earlierOpenAbs cwd pathRaw),
        raised := none, printed := [errHead ++ closeErrMsg], archived := [] } := by
  rw [doArchiveEarlier, tryEarlier_close cwd fs tree (normpath pathRaw) depth
    (earlierOpenAbs cwd pathRaw) hd]
  rfl

theorem tryEarlier_write (cwd : Str) (fs : FS) (tree : DirTree) (pathNorm : Str)
    (depth : Int) (openAbs : Str) (i : Nat) (hd : 1 ≤ depth)
    (hi : i < (archiveLoop cwd depth pathNorm pathNorm tree).length) :
    tryEarlier cwd fs tree pathNorm depth (some (Fault.write i)) openAbs =
      .error (writeErrMsg, true, fs.addFile openAbs) := by
  rw [tryEarlier, if_neg (by omega), if_neg (by simp)]
  simp only [if_pos hi]

theorem doArchiveEarlier_write (cwd : Str) (fs : FS) (tree : DirTree) (pathRaw : Str)
    (depth : Int) (i : Nat) (hd : 1 ≤ depth)
    (hi : i < (archiveLoop cwd depth (normpath pathRaw) (normpath pathRaw) tree).length) :
    doArchiveEarlier cwd fs tree pathRaw depth (some (Fault.write i)) =
      { fs := if (fs.addFile (earlierOpenAbs cwd pathRaw)).hasFile
                  (earlierDeleteAbs cwd pathRaw)
              then (fs.addFile (earlierOpenAbs cwd pathRaw)).removeFile
                  (earlierDeleteAbs cwd pathRaw)
              else fs.addFile (earlierOpenAbs cwd pathRaw),
        raised := none, printed := [errHead ++ writeErrMsg], archived := [] } := by
  rw [doArchiveEarlier, tryEarlier_write cwd fs tree (normpath pathRaw) depth
    (earlierOpenAbs cwd pathRaw) i hd hi]
  rfl

theorem tryEarlier_open (cwd : Str) (fs : FS) (tree : DirTree) (pathNorm : Str)
    (depth : Int) (openAbs : Str) (hd : 1 ≤ depth) :
    tryEarlier cwd fs tree pathNorm depth (some Fault.openArchive) openAbs =
      .error (openErrMsg, true, fs) := by
  rw [tryEarlier, if_neg (by omega), if_pos rfl]

theorem doArchiveEarlier_open (cwd : Str) (fs : FS) (tree : DirTree) (pathRaw : Str)
    (depth : Int) (hd : 1 ≤ depth) :
    doArchiveEarlier cwd fs tree pathRaw depth (some Fault.openArchive) =
      { fs := if fs.hasFile (earlierDeleteAbs cwd pathRaw)
              then fs.removeFile (earlierDeleteAbs cwd pathRaw) else fs,
        raised := none, printed := [errHead ++ openErrMsg], archived := [] } := by
  rw [doArchiveEarlier, tryEarlier_open cwd fs tree (normpath pathRaw) depth
    (earlierOpenAbs cwd pathRaw) hd]
  rfl

theorem tryEarlier_lowdepth (cwd : Str) (fs : FS) (tree : DirTree) (pathNorm : Str)
    (depth : Int) (fault : Option Fault) (openAbs : Str) (hd : depth < 1) :
    tryEarlier cwd fs tree pathNorm depth fault openAbs =
      .error (depthErrMsg, false, fs) := by
  rw [tryEarlier, if_pos hd]

theorem doArchiveEarlier_lowdepth (cwd : Str) (fs : FS) (tree : DirTree) (pathRaw : Str)
    (depth : Int) (fault : Option Fault) (hd : depth < 1) :
    doArchiveEarlier cwd fs tree pathRaw depth fault =
      { fs := fs, raised := some unboundLocalMsg, printed := [], archived := [] } := by
  rw [doArchiveEarlier, tryEarlier_lowdepth cwd fs tree (normpath pathRaw) depth fault
    (earlierOpenAbs cwd pathRaw) hd]
  rfl
theorem doArchiveLater_eq (cwd : Str) (fs : FS) (tree : DirTree) (srcRaw outRaw : Str)
    (depth : Int) (ts : Str) (fault : Option Fault) :
    doArchiveLater cwd fs tree srcRaw outRaw depth ts fault =
      if fs.hasDir (abspath cwd (normpath outRaw)) then
        afterMakedirsLater cwd fs tree (normpath srcRaw) (normpath outRaw) depth ts fault
      else if fault = some Fault.makedirs then
        { fs := fs, raised := some makedirsErrMsg, printed := [], archived := [] }
      else
        afterMakedirsLater cwd (fs.addDir (abspath cwd (normpath outRaw))) tree
          (normpath srcRaw) (normpath outRaw) depth ts fault := rfl

theorem afterMakedirsLater_ok (cwd : Str) (fs : FS) (tree : DirTree)
    (src_path output_dir : Str) (depth : Int) (ts : Str) (fault : Option Fault)
    (fs2 : FS) (entries : List (Str × Str))
    (h : tryLater cwd fs tree src_path depth fault
      (laterArchiveAbs cwd output_dir src_path ts) = .ok (fs2, entries)) :
    afterMakedirsLater cwd fs tree src_path output_dir depth ts fault =
      { fs := fs2, raised := none,
        printed := [successHead ++ laterArchiveName src_path ts], archived := entries } := by
  rw [afterMakedirsLater, h]

theorem afterMakedirsLater_error (cwd : Str) (fs : FS) (tree : DirTree)
    (src_path output_dir : Str) (depth : Int) (ts : Str) (fault : Option Fault)
    (reason : Str) (fs2 : FS)
    (h : tryLater cwd fs tree src_path depth fault
      (laterArchiveAbs cwd output_dir src_path ts) = .error (reason, fs2)) :
    afterMakedirsLater cwd fs tree src_path output_dir depth ts fault =
      { fs := if fs2.hasFile (laterArchiveAbs cwd output_dir src_path ts)
              then fs2.removeFile (laterArchiveAbs cwd output_dir src_path ts) else fs2,
        raised := none, printed := [errHead ++ reason], archived := [] } := by
  rw [afterMakedirsLater, h]

theorem afterMakedirsLater_raised (cwd : Str) (fs : FS) (tree : DirTree)
    (src_path output_dir : Str) (depth : Int) (ts : Str) (fault : Option Fault) :
    (afterMakedirsLater cwd fs tree src_path output_dir depth ts fault).raised = none := by
  cases h : tryLater cwd fs tree src_path depth fault
      (laterArchiveAbs cwd output_dir src_path ts) with
  | ok v =>
    obtain ⟨fs2, entries⟩ := v
    rw [afterMakedirsLater_ok cwd fs tree src_path output_dir depth ts fault fs2 entries h]
  | error e =>
    obtain ⟨reason, fs2⟩ := e
    rw [afterMakedirsLater_error cwd fs tree src_path output_dir depth ts fault reason fs2 h]

theorem tryLater_none (cwd : Str) (fs : FS) (tree : DirTree) (src_path : Str)
    (depth : Int) (archiveAbs : Str) (hd : 1 ≤ depth) :
    tryLater cwd fs tree src_path depth none archiveAbs =
      .ok (fs.addFile archiveAbs, archiveLoop cwd depth src_path src_path tree) := by
  rw [tryLater, if_neg (by omega), if_neg (by simp), if_neg (by simp)]

theorem tryLater_close (cwd : Str) (fs : FS) (tree : DirTree) (src_path : Str)
    (depth : Int) (archiveAbs : Str) (hd : 1 ≤ depth) :
    tryLater cwd fs tree src_path depth (some Fault.closeArchive) archiveAbs =
      .error (closeErrMsg, fs.addFile archiveAbs) := by
  rw [tryLater, if_neg (by omega), if_neg (by simp), if_neg (by simp)]

theorem tryLater_write (cwd : Str) (fs : FS) (tree : DirTree) (src_path : Str)
    (depth : Int) (archiveAbs : Str) (i : Nat) (hd : 1 ≤ depth)
    (hi : i < (archiveLoop cwd depth src_path src_path tree).length) :
    tryLater cwd fs tree src_path depth (some (Fault.write i)) archiveAbs =
      .error (writeErrMsg, fs.addFile archiveAbs) := by
  rw [tryLater, if_neg (by omega), if_neg (by simp), if_neg (by simp)]
  simp only [if_pos hi]

theorem tryLater_open (cwd : Str) (fs : FS) (tree : DirTree) (src_path : Str)
    (depth : Int) (archiveAbs : Str) (hd : 1 ≤ depth) :
    tryLater cwd fs tree src_path depth (some Fault.openArchive) archiveAbs =
      .error (openErrMsg, fs) := by
  rw [tryLater, if_neg (by omega), if_neg (by simp), if_pos rfl]

theorem tryLater_permission (cwd : Str) (fs : FS) (tree : DirTree) (src_path : Str)
    (depth : Int) (archiveAbs : Str) (hd : 1 ≤ depth) :
    tryLater cwd fs tree src_path depth (some Fault.permission) archiveAbs =
      .error (permErrMsg, fs) := by
  rw [tryLater, if_neg (by omega), if_pos rfl]

theorem tryLater_lowdepth (cwd : Str) (fs : FS) (tree : DirTree) (src_path : Str)
    (depth : Int) (fault : Option Fault) (archiveAbs : Str) (hd : depth < 1) :
    tryLater cwd fs tree src_path depth fault archiveAbs = .error (depthErrMsg, fs) := by
  rw [tryLater, if_pos hd]

theorem doArchiveLater_raised_no_makedirs (cwd : Str) (fs : FS) (tree : DirTree)
    (srcRaw outRaw : Str) (depth : Int) (ts : Str) (fault : Option Fault)
    (h : fault ≠ some Fault.makedirs) :
    (doArchiveLater cwd fs tree srcRaw outRaw depth ts fault).raised = none := by
  rw [doArchiveLater_eq]
  by_cases hdir : fs.hasDir (abspath cwd (normpath outRaw)) = true
  · rw [if_pos hdir]
    exact afterMakedirsLater_raised cwd fs tree (normpath srcRaw) (normpath outRaw)
      depth ts fault
  · rw [if_neg hdir, if_neg h]
    exact afterMakedirsLater_raised cwd (fs.addDir (abspath cwd (normpath outRaw))) tree
      (normpath srcRaw) (normpath outRaw) depth ts fault

theorem doArchiveLater_raised_hasDir (cwd : Str) (fs : FS) (tree : DirTree)
    (srcRaw outRaw : Str) (depth : Int) (ts : Str) (fault : Option Fault)
    (h : fs.hasDir (abspath cwd (normpath outRaw)) = true) :
    (doArchiveLater cwd fs tree srcRaw outRaw depth ts fault).raised = none := by
  rw [doArchiveLater_eq, if_pos h]
  exact afterMakedirsLater_raised cwd fs tree (normpath srcRaw) (normpath outRaw)
    depth ts fault

theorem doArchiveLater_raised_makedirs (cwd : Str) (fs : FS) (tree : DirTree)
    (srcRaw outRaw : Str) (depth : Int) (ts : Str)
    (h : fs.hasDir (abspath cwd (normpath outRaw)) = false) :
    (doArchiveLater cwd fs tree srcRaw outRaw depth ts (some Fault.makedirs)).raised =
      some makedirsErrMsg := by
  rw [doArchiveLater_eq, if_neg (by simp [h]), if_pos rfl]

mutual
theorem dirsUnder_valid (t : DirTree) (rel : List Str) (hrel : validComps rel = true)
    (hw : wfDir t = true) : ∀ d ∈ dirsUnder rel t, validComps d = true := by
  cases t with
  | node files subdirs =>
    obtain ⟨_, _, _, hws⟩ := wfDir_node files subdirs hw
    intro d hd
    simp only [dirsUnder] at hd
    rcases List.mem_cons.mp hd with h | h
    · rw [h]
      exact hrel
    · exact dirsUnderL_valid subdirs rel hrel hws d h
theorem dirsUnderL_valid (subs : SubdirList) (rel : List Str)
    (hrel : validComps rel = true) (hw : wfSubs subs = true) :
    ∀ d ∈ dirsUnderL rel subs, validComps d = true := by
  cases subs with
  | nil =>
    intro d hd
    simp [dirsUnderL] at hd
  | cons n t rest =>
    obtain ⟨hnv, hwt, hwr⟩ := wfSubs_cons n t rest hw
    intro d hd
    simp only [dirsUnderL] at hd
    rcases List.mem_append.mp hd with h | h
    · exact dirsUnder_valid t (rel ++ [n]) (validComps_snoc rel n hrel hnv) hwt d h
    · exact dirsUnderL_valid rest rel hrel hwr d h
end

theorem doArchiveLater_archived (cwd : Str) (fs : FS) (tree : DirTree)
    (srcRaw outRaw : Str) (depth : Int) (ts : Str) (hd : 1 ≤ depth) :
    (doArchiveLater cwd fs tree srcRaw outRaw depth ts none).archived =
      archiveLoop cwd depth (normpath srcRaw) (normpath srcRaw) tree := by
  rw [doArchiveLater_eq]
  by_cases hdir : fs.hasDir (abspath cwd (normpath outRaw)) = true
  · rw [if_pos hdir, afterMakedirsLater_ok cwd fs tree (normpath srcRaw) (normpath outRaw)
      depth ts none _ _ (tryLater_none cwd fs tree (normpath srcRaw) depth _ hd)]
  · rw [if_neg hdir, if_neg (by simp),
      afterMakedirsLater_ok cwd _ tree (normpath srcRaw) (normpath outRaw)
        depth ts none _ _ (tryLater_none cwd _ tree (normpath srcRaw) depth _ hd)]

-- ## Claim theorems

/-- Claim C8 (confirmed): for every nonnegative duration (whole seconds),
`print_delta_time` returns H:MM:SS where the hours field is the full quotient
`total / 3600` with no reduction modulo 24 (so 24 hours and more render as
hour counts of 24 and above), minutes and seconds lie in 0..59, and every
field is zero-padded to at least two digits. -/
theorem claim_C8 (n : Nat) :
    print_delta_time n =
      pad2 (natDecimal (n / 3600)) ++ ':' :: pad2 (natDecimal (n / 60 % 60)) ++
        ':' :: pad2 (natDecimal (n % 60)) ∧
    n / 60 % 60 ≤ 59 ∧ n % 60 ≤ 59 ∧
    2 ≤ (pad2 (natDecimal (n / 3600))).length ∧
    2 ≤ (pad2 (natDecimal (n / 60 % 60))).length ∧
    2 ≤ (pad2 (natDecimal (n % 60))).length ∧
    (86400 ≤ n → 24 ≤ n / 3600) := by
  have hlen : ∀ s : Str, 2 ≤ (pad2 s).length := by
    intro s
    simp only [pad2, List.length_append, List.length_replicate]
    omega
  refine ⟨?_, by omega, by omega, hlen _, hlen _, hlen _, fun h => by omega⟩
  simp only [print_delta_time]
  have h1 : n % 3600 / 60 = n / 60 % 60 := by omega
  have h2 : n % 3600 % 60 = n % 60 := by omega
  rw [h1, h2]

/-- Claim C8 witness: a 25-hour duration renders with an hours field of 25,
not 1 (no wrap at 24). -/
theorem claim_C8_witness :
    print_delta_time 90061 =
      pad2 (natDecimal (90061 / 3600)) ++ ':' :: pad2 (natDecimal (90061 / 60 % 60)) ++
        ':' :: pad2 (natDecimal (90061 % 60)) ∧ 24 ≤ 90061 / 3600 :=
  ⟨(claim_C8 90061).1, (claim_C8 90061).2.2.2.2.2.2 (by decide)⟩

/-- Claim C9 (confirmed): the earlier variant's `main` parses `--depth` but
invokes `do_archive(args.path)` without forwarding it, so the traversal
always runs with the callee default `depth = 10`, regardless of the value
supplied on the command line; with a command-line depth of 1 the depth-2
file `s/d/c` of the sample tree is still archived. -/
theorem claim_C9 (cwd : Str) (fs : FS) (tree : DirTree) (args : ArgsEarlier)
    (fault : Option Fault) :
    mainEarlier cwd fs tree args fault =
      doArchiveEarlier cwd fs tree args.path 10 fault ∧
    (∀ d : Int, mainEarlier cwd fs tree ⟨args.path, d⟩ fault =
      mainEarlier cwd fs tree args fault) ∧
    (mainEarlier sampleCwd sampleFS sampleTree ⟨sampleSrc, 1⟩ none).archived.map
        Prod.snd =
      [['a'], ['s', '/', 'b'], ['s', '/', 'd', '/', 'c']] :=
  ⟨rfl, fun _ => rfl, by decide⟩

theorem tryEarlier_inert (cwd : Str) (fs : FS) (tree : DirTree) (pathNorm : Str)
    (depth : Int) (openAbs : Str) (fault : Option Fault) (hd : 1 ≤ depth)
    (hf : fault = none ∨ fault = some Fault.makedirs ∨ fault = some Fault.permission) :
    tryEarlier cwd fs tree pathNorm depth fault openAbs =
      .ok (fs.addFile openAbs, archiveLoop cwd depth pathNorm pathNorm tree) := by
  rcases hf with h | h | h <;>
    (subst h; rw [tryEarlier, if_neg (by omega), if_neg (by simp)])

theorem tryEarlier_write_late (cwd : Str) (fs : FS) (tree : DirTree) (pathNorm : Str)
    (depth : Int) (openAbs : Str) (i : Nat) (hd : 1 ≤ depth)
    (hi : ¬ i < (archiveLoop cwd depth pathNorm pathNorm tree).length) :
    tryEarlier cwd fs tree pathNorm depth (some (Fault.write i)) openAbs =
      .ok (fs.addFile openAbs, archiveLoop cwd depth pathNorm pathNorm tree) := by
  rw [tryEarlier, if_neg (by omega), if_neg (by simp)]
  simp only [if_neg hi]

theorem doArchiveEarlier_raised_ge1 (cwd : Str) (fs : FS) (tree : DirTree)
    (pathRaw : Str) (depth : Int) (fault : Option Fault) (hd : 1 ≤ depth) :
    (doArchiveEarlier cwd fs tree pathRaw depth fault).raised = none := by
  rw [doArchiveEarlier]
  cases fault with
  | none =>
    rw [tryEarlier_none cwd fs tree (normpath pathRaw) depth _ hd]
  | some f =>
    cases f with
    | makedirs =>
      rw [tryEarlier_inert cwd fs tree (normpath pathRaw) depth _ _ hd (by simp)]
    | permission =>
      rw [tryEarlier_inert cwd fs tree (normpath pathRaw) depth _ _ hd (by simp)]
    | openArchive =>
      rw [tryEarlier_open cwd fs tree (normpath pathRaw) depth _ hd]
      rfl
    | write i =>
      by_cases hi : i < (archiveLoop cwd depth (normpath pathRaw)
          (normpath pathRaw) tree).length
      · rw [tryEarlier_write cwd fs tree (normpath pathRaw) depth _ i hd hi]
        rfl
      · rw [tryEarlier_write_late cwd fs tree (normpath pathRaw) depth _ i hd hi]
    | closeArchive =>
      rw [tryEarlier_close cwd fs tree (normpath pathRaw) depth _ hd]
      rfl

/-- Claim C3 counterexample: in the earlier variant, an invalid depth raises
ValueError before the local `archive_path` is assigned; the except-handler
then dereferences `archive_path` and itself raises UnboundLocalError, which
propagates to the caller with no diagnostic printed — so it is false that no
exception ever propagates past do_archive. -/
theorem claim_C3_counterexample :
    (doArchiveEarlier sampleCwd sampleFS sampleTree sampleSrc 0 none).raised =
      some unboundLocalMsg ∧
    (doArchiveEarlier sampleCwd sampleFS sampleTree sampleSrc 0 none).printed = [] := by
  decide

/-- Claim C3 (amended): every error raised inside the try-block is caught —
the handler attempts deletion of the archive path, prints one diagnostic line
`Error occured: <reason>`, and do_archive returns normally — with exactly the
two escapes the code forces: in the later variant a failure of os.makedirs
(which runs before the try-block, when the output directory is absent)
propagates uncaught, and in the earlier variant a validation failure
(depth < 1) makes the handler itself raise UnboundLocalError, which
propagates with nothing printed. -/
theorem claim_C3_amended :
    (∀ cwd fs tree srcRaw outRaw depth ts fault, fault ≠ some Fault.makedirs →
      (doArchiveLater cwd fs tree srcRaw outRaw depth ts fault).raised = none) ∧
    (∀ cwd fs tree srcRaw outRaw depth ts fault,
      fs.hasDir (abspath cwd (normpath outRaw)) = true →
      (doArchiveLater cwd fs tree srcRaw outRaw depth ts fault).raised = none) ∧
    (∀ cwd fs tree srcRaw outRaw depth ts,
      fs.hasDir (abspath cwd (normpath outRaw)) = false →
      (doArchiveLater cwd fs tree srcRaw outRaw depth ts (some Fault.makedirs)).raised =
        some makedirsErrMsg) ∧
    (∀ cwd fs tree pathRaw depth fault, 1 ≤ depth →
      (doArchiveEarlier cwd fs tree pathRaw depth fault).raised = none) ∧
    (∀ cwd fs tree pathRaw depth fault, depth < 1 →
      (doArchiveEarlier cwd fs tree pathRaw depth fault).raised = some unboundLocalMsg ∧
      (doArchiveEarlier cwd fs tree pathRaw depth fault).printed = []) ∧
    (∀ cwd fs tree pathRaw depth, 1 ≤ depth →
      (doArchiveEarlier cwd fs tree pathRaw depth (some Fault.closeArchive)).printed =
        [errHead ++ closeErrMsg]) ∧
    (∀ cwd fs tree srcRaw outRaw depth ts,
      fs.hasDir (abspath cwd (normpath outRaw)) = true → 1 ≤ depth →
      (doArchiveLater cwd fs tree srcRaw outRaw depth ts
        (some Fault.openArchive)).printed = [errHead ++ openErrMsg]) := by
  refine ⟨?_, ?_, ?_, ?_, ?_, ?_, ?_⟩
  · intro cwd fs tree srcRaw outRaw depth ts fault h
    exact doArchiveLater_raised_no_makedirs cwd fs tree srcRaw outRaw depth ts fault h
  · intro cwd fs tree srcRaw outRaw depth ts fault h
    exact doArchiveLater_raised_hasDir cwd fs tree srcRaw outRaw depth ts fault h
  · intro cwd fs tree srcRaw outRaw depth ts h
    exact doArchiveLater_raised_makedirs cwd fs tree srcRaw outRaw depth ts h
  · intro cwd fs tree pathRaw depth fault h
    exact doArchiveEarlier_raised_ge1 cwd fs tree pathRaw depth fault h
  · intro cwd fs tree pathRaw depth fault h
    rw [doArchiveEarlier_lowdepth cwd fs tree pathRaw depth fault h]
    exact ⟨rfl, rfl⟩
  · intro cwd fs tree pathRaw depth h
    rw [doArchiveEarlier_close cwd fs tree pathRaw depth h]
  · intro cwd fs tree srcRaw outRaw depth ts hdir h
    rw [doArchiveLater_eq, if_pos hdir,
      afterMakedirsLater_error cwd fs tree (normpath srcRaw) (normpath outRaw) depth ts
        (some Fault.openArchive) openErrMsg fs
        (tryLater_open cwd fs tree (normpath srcRaw) depth _ h)]

/-- Claim C3 witness: concrete runs exercising each regime of the amended
claim. -/
theorem claim_C3_amended_witness :
    (doArchiveEarlier sampleCwd sampleFS sampleTree sampleSrc 10
      (some Fault.closeArchive)).raised = none ∧
    (doArchiveEarlier sampleCwd sampleFS sampleTree sampleSrc 0 none).raised =
      some unboundLocalMsg ∧
    (doArchiveLater sampleCwd sampleFS sampleTree sampleSrc ['/', 'o'] 2 ['7']
      (some Fault.makedirs)).raised = some makedirsErrMsg ∧
    (doArchiveLater sampleCwd sampleFS sampleTree sampleSrc sampleCwd 2 ['7']
      (some Fault.openArchive)).printed = [errHead ++ openErrMsg] :=
  ⟨claim_C3_amended.2.2.2.1 sampleCwd sampleFS sampleTree sampleSrc 10
      (some Fault.closeArchive) (by decide),
    (claim_C3_amended.2.2.2.2.1 sampleCwd sampleFS sampleTree sampleSrc 0 none
      (by decide)).1,
    claim_C3_amended.2.2.1 sampleCwd sampleFS sampleTree sampleSrc ['/', 'o'] 2 ['7']
      (by decide),
    claim_C3_amended.2.2.2.2.2.2 sampleCwd sampleFS sampleTree sampleSrc sampleCwd 2 ['7']
      (by decide) (by decide)⟩

theorem addDir_files (fs : FS) (p : Str) : (fs.addDir p).files = fs.files := rfl

theorem addDir_dirs (fs : FS) (p : Str) : (fs.addDir p).dirs = p :: fs.dirs := rfl

theorem removeFile_dirs (fs : FS) (p : Str) : (fs.removeFile p).dirs = fs.dirs := rfl

theorem hasFile_addDir (fs : FS) (p q : Str) : (fs.addDir p).hasFile q = fs.hasFile q := rfl

theorem doArchiveLater_lowdepth_fields (cwd : Str) (fs : FS) (tree : DirTree)
    (srcRaw outRaw : Str) (depth : Int) (ts : Str) (hd : depth < 1) :
    (doArchiveLater cwd fs tree srcRaw outRaw depth ts none).raised = none ∧
    (doArchiveLater cwd fs tree srcRaw outRaw depth ts none).printed =
      [errHead ++ depthErrMsg] ∧
    (doArchiveLater cwd fs tree srcRaw outRaw depth ts none).archived = [] ∧
    (doArchiveLater cwd fs tree srcRaw outRaw depth ts none).fs.dirs =
      (if fs.hasDir (abspath cwd (normpath outRaw)) then fs.dirs
       else abspath cwd (normpath outRaw) :: fs.dirs) ∧
    (fs.hasFile (laterArchiveAbs cwd (normpath outRaw) (normpath srcRaw) ts) = false →
      (doArchiveLater cwd fs tree srcRaw outRaw depth ts none).fs.files = fs.files) := by
  rw [doArchiveLater_eq]
  by_cases hdir : fs.hasDir (abspath cwd (normpath outRaw)) = true
  · rw [if_pos hdir,
      afterMakedirsLater_error cwd fs tree (normpath srcRaw) (normpath outRaw) depth ts
        none depthErrMsg fs
        (tryLater_lowdepth cwd fs tree (normpath srcRaw) depth none _ hd)]
    refine ⟨rfl, rfl, rfl, ?_, ?_⟩
    · rw [if_pos hdir]
      show (if fs.hasFile (laterArchiveAbs cwd (normpath outRaw) (normpath srcRaw) ts) =
          true then fs.removeFile (laterArchiveAbs cwd (normpath outRaw)
            (normpath srcRaw) ts) else fs).dirs = fs.dirs
      by_cases hfile : fs.hasFile (laterArchiveAbs cwd (normpath outRaw)
          (normpath srcRaw) ts) = true
      · rw [if_pos hfile, removeFile_dirs]
      · rw [if_neg hfile]
    · intro hfile
      show (if fs.hasFile (laterArchiveAbs cwd (normpath outRaw) (normpath srcRaw) ts) =
          true then fs.removeFile (laterArchiveAbs cwd (normpath outRaw)
            (normpath srcRaw) ts) else fs).files = fs.files
      rw [if_neg (by rw [hfile]; simp)]
  · rw [if_neg hdir, if_neg (by simp),
      afterMakedirsLater_error cwd (fs.addDir (abspath cwd (normpath outRaw))) tree
        (normpath srcRaw) (normpath outRaw) depth ts none depthErrMsg _
        (tryLater_lowdepth cwd (fs.addDir (abspath cwd (normpath outRaw))) tree
          (normpath srcRaw) depth none _ hd)]
    have hsame : (fs.addDir (abspath cwd (normpath outRaw))).hasFile
        (laterArchiveAbs cwd (normpath outRaw) (normpath srcRaw) ts) =
        fs.hasFile (laterArchiveAbs cwd (normpath outRaw) (normpath srcRaw) ts) := rfl
    refine ⟨rfl, rfl, rfl, ?_, ?_⟩
    · rw [if_neg hdir]
      show (if (fs.addDir (abspath cwd (normpath outRaw))).hasFile
          (laterArchiveAbs cwd (normpath outRaw) (normpath srcRaw) ts) = true then
            (fs.addDir (abspath cwd (normpath outRaw))).removeFile
              (laterArchiveAbs cwd (normpath outRaw) (normpath srcRaw) ts)
          else fs.addDir (abspath cwd (normpath outRaw))).dirs =
        abspath cwd (normpath outRaw) :: fs.dirs
      by_cases hfile : fs.hasFile (laterArchiveAbs cwd (normpath outRaw)
          (normpath srcRaw) ts) = true
      · rw [if_pos (by rw [hsame]; exact hfile), removeFile_dirs, addDir_dirs]
      · rw [if_neg (by rw [hsame]; exact hfile), addDir_dirs]
    · intro hfile
      show (if (fs.addDir (abspath cwd (normpath outRaw))).hasFile
          (laterArchiveAbs cwd (normpath outRaw) (normpath srcRaw) ts) = true then
            (fs.addDir (abspath cwd (normpath outRaw))).removeFile
              (laterArchiveAbs cwd (normpath outRaw) (normpath srcRaw) ts)
          else fs.addDir (abspath cwd (normpath outRaw))).files = fs.files
      rw [if_neg (by rw [hsame, hfile]; simp), addDir_files]

/-- Claim C5 counterexample: in the later variant with max_depth = 0 and an
absent output directory, the output directory is created before the depth
validation runs — refuting "no output directory is created, and no
filesystem access occurs before the rejection". -/
theorem claim_C5_counterexample :
    sampleFS.hasDir ['/', 'o'] = false ∧
    (doArchiveLater sampleCwd sampleFS sampleTree sampleSrc ['/', 'o'] 0 ['7']
        none).fs.hasDir ['/', 'o'] = true ∧
    (doArchiveLater sampleCwd sampleFS sampleTree sampleSrc ['/', 'o'] 0 ['7']
        none).printed = [errHead ++ depthErrMsg] := by
  decide

/-- Claim C5 (amended): a max_depth < 1 request fails the depth validation
and no archive is opened — the earlier variant performs no filesystem change
at all (though its cleanup handler then raises UnboundLocalError), while the
later variant, whose directory-creation step precedes validation, creates the
absent output directory as a side effect before rejecting; no archive file is
created in either variant. -/
theorem claim_C5_amended :
    (∀ cwd fs tree srcRaw outRaw depth ts, depth < 1 →
      (doArchiveLater cwd fs tree srcRaw outRaw depth ts none).raised = none ∧
      (doArchiveLater cwd fs tree srcRaw outRaw depth ts none).printed =
        [errHead ++ depthErrMsg] ∧
      (doArchiveLater cwd fs tree srcRaw outRaw depth ts none).archived = [] ∧
      (doArchiveLater cwd fs tree srcRaw outRaw depth ts none).fs.dirs =
        (if fs.hasDir (abspath cwd (normpath outRaw)) then fs.dirs
         else abspath cwd (normpath outRaw) :: fs.dirs) ∧
      (fs.hasFile (laterArchiveAbs cwd (normpath outRaw) (normpath srcRaw) ts) = false →
        (doArchiveLater cwd fs tree srcRaw outRaw depth ts none).fs.files = fs.files)) ∧
    (∀ cwd fs tree pathRaw depth fault, depth < 1 →
      (doArchiveEarlier cwd fs tree pathRaw depth fault).fs = fs ∧
      (doArchiveEarlier cwd fs tree pathRaw depth fault).archived = []) := by
  constructor
  · intro cwd fs tree srcRaw outRaw depth ts hd
    exact doArchiveLater_lowdepth_fields cwd fs tree srcRaw outRaw depth ts hd
  · intro cwd fs tree pathRaw depth fault hd
    rw [doArchiveEarlier_lowdepth cwd fs tree pathRaw depth fault hd]
    exact ⟨rfl, rfl⟩

/-- Claim C5 witness: concrete low-depth runs of both variants. -/
theorem claim_C5_amended_witness :
    (doArchiveLater sampleCwd sampleFS sampleTree sampleSrc ['/', 'o'] 0 ['7']
        none).fs.dirs =
      (if sampleFS.hasDir (abspath sampleCwd (normpath ['/', 'o'])) then sampleFS.dirs
       else abspath sampleCwd (normpath ['/', 'o']) :: sampleFS.dirs) ∧
    (doArchiveEarlier sampleCwd sampleFS sampleTree sampleSrc 0 none).fs = sampleFS :=
  ⟨(claim_C5_amended.1 sampleCwd sampleFS sampleTree sampleSrc ['/', 'o'] 0 ['7']
      (by decide)).2.2.2.1,
    (claim_C5_amended.2 sampleCwd sampleFS sampleTree sampleSrc 0 none (by decide)).1⟩

theorem cleanup_removes (fs2 : FS) (a : Str) (h : fs2.hasFile a = true) :
    (if fs2.hasFile a then fs2.removeFile a else fs2).hasFile a = false := by
  rw [if_pos h]
  exact removeFile_hasFile_self fs2 a

/-- Claim C2 counterexample: in the earlier variant, the archive is opened at
`archive_name` relative to the cwd, but the handler deletes
`join(dirname(path), archive_name)`; with source `/d/s` and cwd `/w`, a
failure after the archive was opened leaves the opened file `/w/s.zip` on
disk after the operation returns — refuting the cleanup guarantee as stated
for every invocation of do_archive. -/
theorem claim_C2_counterexample :
    (doArchiveEarlier sampleCwd sampleFS sampleTree sampleSrc 10
        (some Fault.closeArchive)).fs.hasFile (earlierOpenAbs sampleCwd sampleSrc) =
      true ∧
    (doArchiveEarlier sampleCwd sampleFS sampleTree sampleSrc 10
        (some Fault.closeArchive)).raised = none ∧
    (doArchiveEarlier sampleCwd sampleFS sampleTree sampleSrc 10
        (some Fault.closeArchive)).printed = [errHead ++ closeErrMsg] ∧
    earlierOpenAbs sampleCwd sampleSrc ≠ earlierDeleteAbs sampleCwd sampleSrc := by
  decide

/-- Claim C2 (amended): if an error is raised after the archive file has been
opened, then after the operation returns the opened archive file does not
exist on disk — always in the later variant, and in the earlier variant
exactly when the handler's deletion path `join(dirname(path), archive_name)`
resolves to the same file the archive was opened at (the claim as stated
fails in the earlier variant whenever the two differ). -/
theorem claim_C2_amended :
    (∀ cwd fs tree srcRaw outRaw depth ts, 1 ≤ depth →
      (doArchiveLater cwd fs tree srcRaw outRaw depth ts
          (some Fault.closeArchive)).fs.hasFile
        (laterArchiveAbs cwd (normpath outRaw) (normpath srcRaw) ts) = false ∧
      (doArchiveLater cwd fs tree srcRaw outRaw depth ts
          (some Fault.closeArchive)).raised = none) ∧
    (∀ cwd fs tree srcRaw outRaw depth ts i, 1 ≤ depth →
      i < (archiveLoop cwd depth (normpath srcRaw) (normpath srcRaw) tree).length →
      (doArchiveLater cwd fs tree srcRaw outRaw depth ts
          (some (Fault.write i))).fs.hasFile
        (laterArchiveAbs cwd (normpath outRaw) (normpath srcRaw) ts) = false) ∧
    (∀ cwd fs tree pathRaw depth, 1 ≤ depth →
      earlierDeleteAbs cwd pathRaw = earlierOpenAbs cwd pathRaw →
      (doArchiveEarlier cwd fs tree pathRaw depth
          (some Fault.closeArchive)).fs.hasFile (earlierOpenAbs cwd pathRaw) = false) ∧
    (∀ cwd fs tree pathRaw depth i, 1 ≤ depth →
      i < (archiveLoop cwd depth (normpath pathRaw) (normpath pathRaw) tree).length →
      earlierDeleteAbs cwd pathRaw = earlierOpenAbs cwd pathRaw →
      (doArchiveEarlier cwd fs tree pathRaw depth
          (some (Fault.write i))).fs.hasFile (earlierOpenAbs cwd pathRaw) = false) := by
  refine ⟨?_, ?_, ?_, ?_⟩
  · intro cwd fs tree srcRaw outRaw depth ts hd
    constructor
    · rw [doArchiveLater_eq]
      by_cases hdir : fs.hasDir (abspath cwd (normpath outRaw)) = true
      · rw [if_pos hdir,
          afterMakedirsLater_error cwd fs tree (normpath srcRaw) (normpath outRaw)
            depth ts _ closeErrMsg _
            (tryLater_close cwd fs tree (normpath srcRaw) depth _ hd)]
        exact cleanup_removes _ _ (addFile_hasFile_self fs _)
      · rw [if_neg hdir, if_neg (by simp),
          afterMakedirsLater_error cwd _ tree (normpath srcRaw) (normpath outRaw)
            depth ts _ closeErrMsg _
            (tryLater_close cwd _ tree (normpath srcRaw) depth _ hd)]
        exact cleanup_removes _ _
          (addFile_hasFile_self (fs.addDir (abspath cwd (normpath outRaw))) _)
    · exact doArchiveLater_raised_no_makedirs cwd fs tree srcRaw outRaw depth ts _
        (by simp)
  · intro cwd fs tree srcRaw outRaw depth ts i hd hi
    rw [doArchiveLater_eq]
    by_cases hdir : fs.hasDir (abspath cwd (normpath outRaw)) = true
    · rw [if_pos hdir,
        afterMakedirsLater_error cwd fs tree (normpath srcRaw) (normpath outRaw)
          depth ts _ writeErrMsg _
          (tryLater_write cwd fs tree (normpath srcRaw) depth _ i hd hi)]
      exact cleanup_removes _ _ (addFile_hasFile_self fs _)
    · rw [if_neg hdir, if_neg (by simp),
        afterMakedirsLater_error cwd _ tree (normpath srcRaw) (normpath outRaw)
          depth ts _ writeErrMsg _
          (tryLater_write cwd _ tree (normpath srcRaw) depth _ i hd hi)]
      exact cleanup_removes _ _
        (addFile_hasFile_self (fs.addDir (abspath cwd (normpath outRaw))) _)
  · intro cwd fs tree pathRaw depth hd heq
    rw [doArchiveEarlier_close cwd fs tree pathRaw depth hd, heq]
    exact cleanup_removes _ _ (addFile_hasFile_self fs _)
  · intro cwd fs tree pathRaw depth i hd hi heq
    rw [doArchiveEarlier_write cwd fs tree pathRaw depth i hd hi, heq]
    exact cleanup_removes _ _ (addFile_hasFile_self fs _)

/-- Claim C2 witness: concrete faulted runs — the later variant always
removes the opened archive; the earlier variant removes it when invoked with
a bare relative source name (cleanup path = opened path). -/
theorem claim_C2_amended_witness :
    (doArchiveLater sampleCwd sampleFS sampleTree sampleSrc sampleCwd 2 ['7']
        (some Fault.closeArchive)).fs.hasFile
      (laterArchiveAbs sampleCwd (normpath sampleCwd) (normpath sampleSrc) ['7']) =
        false ∧
    (doArchiveEarlier sampleCwd sampleFS sampleTree ['s'] 10
        (some Fault.closeArchive)).fs.hasFile (earlierOpenAbs sampleCwd ['s']) = false :=
  ⟨(claim_C2_amended.1 sampleCwd sampleFS sampleTree sampleSrc sampleCwd 2 ['7']
      (by decide)).1,
    claim_C2_amended.2.2.1 sampleCwd sampleFS sampleTree ['s'] 10 (by decide)
      (by decide)⟩

/-- Claim C10 (confirmed): in the earlier variant the error handler checks
and deletes `join(dirname(path), basename(path.rstrip('/')) + '.zip')`, while
the archive was opened at that bare name resolved in the current working
directory; whenever these resolve to different paths, a failure after the
open leaves the partially written archive in the cwd and instead deletes any
pre-existing file at the source's parent-directory path. -/
theorem claim_C10 (cwd : Str) (fs : FS) (tree : DirTree) (pathRaw : Str) (depth : Int)
    (hd : 1 ≤ depth)
    (hne : earlierDeleteAbs cwd pathRaw ≠ earlierOpenAbs cwd pathRaw) :
    ((doArchiveEarlier cwd fs tree pathRaw depth (some Fault.closeArchive)).raised =
        none ∧
      (doArchiveEarlier cwd fs tree pathRaw depth
          (some Fault.closeArchive)).fs.hasFile (earlierOpenAbs cwd pathRaw) = true ∧
      (fs.hasFile (earlierDeleteAbs cwd pathRaw) = true →
        (doArchiveEarlier cwd fs tree pathRaw depth
            (some Fault.closeArchive)).fs.hasFile (earlierDeleteAbs cwd pathRaw) =
          false)) ∧
    (∀ i, i < (archiveLoop cwd depth (normpath pathRaw) (normpath pathRaw) tree).length →
      (doArchiveEarlier cwd fs tree pathRaw depth
          (some (Fault.write i))).fs.hasFile (earlierOpenAbs cwd pathRaw) = true) := by
  have hopen : earlierOpenAbs cwd pathRaw ≠ earlierDeleteAbs cwd pathRaw := Ne.symm hne
  constructor
  · rw [doArchiveEarlier_close cwd fs tree pathRaw depth hd]
    refine ⟨rfl, ?_, ?_⟩
    · show (if (fs.addFile (earlierOpenAbs cwd pathRaw)).hasFile
          (earlierDeleteAbs cwd pathRaw) = true then
            (fs.addFile (earlierOpenAbs cwd pathRaw)).removeFile
              (earlierDeleteAbs cwd pathRaw)
          else fs.addFile (earlierOpenAbs cwd pathRaw)).hasFile
        (earlierOpenAbs cwd pathRaw) = true
      by_cases h : (fs.addFile (earlierOpenAbs cwd pathRaw)).hasFile
          (earlierDeleteAbs cwd pathRaw) = true
      · rw [if_pos h, removeFile_hasFile_other _ _ _ hopen]
        exact addFile_hasFile_self fs _
      · rw [if_neg h]
        exact addFile_hasFile_self fs _
    · intro hpre
      show (if (fs.addFile (earlierOpenAbs cwd pathRaw)).hasFile
          (earlierDeleteAbs cwd pathRaw) = true then
            (fs.addFile (earlierOpenAbs cwd pathRaw)).removeFile
              (earlierDeleteAbs cwd pathRaw)
          else fs.addFile (earlierOpenAbs cwd pathRaw)).hasFile
        (earlierDeleteAbs cwd pathRaw) = false
      rw [if_pos (addFile_hasFile_mono fs _ _ hpre)]
      exact removeFile_hasFile_self _ _
  · intro i hi
    rw [doArchiveEarlier_write cwd fs tree pathRaw depth i hd hi]
    show (if (fs.addFile (earlierOpenAbs cwd pathRaw)).hasFile
        (earlierDeleteAbs cwd pathRaw) = true then
          (fs.addFile (earlierOpenAbs cwd pathRaw)).removeFile
            (earlierDeleteAbs cwd pathRaw)
        else fs.addFile (earlierOpenAbs cwd pathRaw)).hasFile
      (earlierOpenAbs cwd pathRaw) = true
    by_cases h : (fs.addFile (earlierOpenAbs cwd pathRaw)).hasFile
        (earlierDeleteAbs cwd pathRaw) = true
    · rw [if_pos h, removeFile_hasFile_other _ _ _ hopen]
      exact addFile_hasFile_self fs _
    · rw [if_neg h]
      exact addFile_hasFile_self fs _

/-- Claim C10 witness: archiving `/d/s` from cwd `/w` with a pre-existing
file `/d/s.zip`, a close failure leaves `/w/s.zip` and deletes `/d/s.zip`. -/
theorem claim_C10_witness :
    (doArchiveEarlier sampleCwd sampleFSPre sampleTree sampleSrc 10
        (some Fault.closeArchive)).fs.hasFile (earlierOpenAbs sampleCwd sampleSrc) =
      true ∧
    (doArchiveEarlier sampleCwd sampleFSPre sampleTree sampleSrc 10
        (some Fault.closeArchive)).fs.hasFile (earlierDeleteAbs sampleCwd sampleSrc) =
      false :=
  ⟨(claim_C10 sampleCwd sampleFSPre sampleTree sampleSrc 10 (by decide)
      (by decide)).1.2.1,
    (claim_C10 sampleCwd sampleFSPre sampleTree sampleSrc 10 (by decide)
      (by decide)).1.2.2 (by decide)⟩

theorem hasDir_addFile (fs : FS) (p q : Str) : (fs.addFile p).hasDir q = fs.hasDir q := rfl

theorem addDir_hasDir_self (fs : FS) (p : Str) : (fs.addDir p).hasDir p = true := by
  rw [FS.hasDir, addDir_dirs]
  exact List.elem_iff.mpr (List.mem_cons_self p fs.dirs)

/-- Claim C7 (confirmed): in the earlier variant a successful run creates the
archive at `basename(path.rstrip('/')) + '.zip'` — no timestamp — resolved
against the process's current working directory, regardless of where the
source directory is located: the created file's dirname is the cwd and its
basename is the bare archive name. -/
theorem claim_C7 (ccs : List Str) (fs : FS) (tree : DirTree) (srcRaw : Str)
    (depth : Int) (hv : validComps ccs = true) (hd : 1 ≤ depth) :
    (doArchiveEarlier (canonAbs ccs) fs tree srcRaw depth none).raised = none ∧
    earlierArchiveName srcRaw = basename (rstripSep srcRaw) ++ ".zip".toList ∧
    earlierOpenAbs (canonAbs ccs) srcRaw =
      canonAbs (ccs ++ [earlierArchiveName srcRaw]) ∧
    (doArchiveEarlier (canonAbs ccs) fs tree srcRaw depth none).fs.hasFile
      (canonAbs (ccs ++ [earlierArchiveName srcRaw])) = true ∧
    dirname (canonAbs (ccs ++ [earlierArchiveName srcRaw])) = canonAbs ccs ∧
    basename (canonAbs (ccs ++ [earlierArchiveName srcRaw])) =
      earlierArchiveName srcRaw := by
  have hnm := validName_earlierArchiveName srcRaw
  have hsep := sep_not_mem_earlierArchiveName srcRaw
  have habs : earlierOpenAbs (canonAbs ccs) srcRaw =
      canonAbs (ccs ++ [earlierArchiveName srcRaw]) := by
    rw [earlierOpenAbs]
    exact abspath_canon_name ccs _ hv hnm
  refine ⟨?_, rfl, habs, ?_, ?_, ?_⟩
  · exact doArchiveEarlier_raised_ge1 _ fs tree srcRaw depth none hd
  · rw [doArchiveEarlier_success _ fs tree srcRaw depth hd]
    show (fs.addFile (earlierOpenAbs (canonAbs ccs) srcRaw)).hasFile
      (canonAbs (ccs ++ [earlierArchiveName srcRaw])) = true
    rw [← habs]
    exact addFile_hasFile_self fs _
  · exact dirname_canonAbs_snoc ccs _ hv hsep
  · exact basename_canonAbs ccs _ hsep

/-- Claim C7 witness: archiving `/d/s` from cwd `/w` creates `/w/s.zip`. -/
theorem claim_C7_witness :
    (doArchiveEarlier (canonAbs [['w']]) sampleFS sampleTree sampleSrc 10
        none).fs.hasFile (canonAbs ([['w']] ++ [earlierArchiveName sampleSrc])) = true ∧
    dirname (canonAbs ([['w']] ++ [earlierArchiveName sampleSrc])) = canonAbs [['w']] :=
  ⟨(claim_C7 [['w']] sampleFS sampleTree sampleSrc 10 (by decide) (by decide)).2.2.2.1,
    (claim_C7 [['w']] sampleFS sampleTree sampleSrc 10 (by decide) (by decide)).2.2.2.2.1⟩

/-- Claim C6 (confirmed): in the later variant a successful run names the
archive `<basename(source_path)>_<timestamp>.zip` and places it inside the
output directory — whose absent path is created as a side effect before the
archive is opened: afterwards the output directory exists, the archive file
exists at the path joining the output directory with that name, and that
path's dirname is the output directory itself. -/
theorem claim_C6 (cwd : Str) (ds : List Str) (bn : Str) (ocs : List Str) (fs : FS)
    (tree : DirTree) (depth : Int) (ts : Str)
    (hds : validComps (ds ++ [bn]) = true) (hocs : validComps ocs = true)
    (hts : sep ∉ ts) (hd : 1 ≤ depth) :
    (doArchiveLater cwd fs tree (canonAbs (ds ++ [bn])) (canonAbs ocs) depth ts
        none).raised = none ∧
    laterArchiveName (normpath (canonAbs (ds ++ [bn]))) ts =
      bn ++ '_' :: ts ++ ".zip".toList ∧
    laterArchiveAbs cwd (normpath (canonAbs ocs)) (normpath (canonAbs (ds ++ [bn]))) ts =
      canonAbs (ocs ++ [bn ++ '_' :: ts ++ ".zip".toList]) ∧
    (doArchiveLater cwd fs tree (canonAbs (ds ++ [bn])) (canonAbs ocs) depth ts
        none).fs.hasFile (canonAbs (ocs ++ [bn ++ '_' :: ts ++ ".zip".toList])) = true ∧
    (doArchiveLater cwd fs tree (canonAbs (ds ++ [bn])) (canonAbs ocs) depth ts
        none).fs.hasDir (canonAbs ocs) = true ∧
    dirname (canonAbs (ocs ++ [bn ++ '_' :: ts ++ ".zip".toList])) = canonAbs ocs ∧
    basename (canonAbs (ocs ++ [bn ++ '_' :: ts ++ ".zip".toList])) =
      bn ++ '_' :: ts ++ ".zip".toList := by
  have hbn : validName bn = true := (validComps_iff _).mp hds bn (by simp)
  have hbnval := (validName_iff bn).mp hbn
  have hnsrc : normpath (canonAbs (ds ++ [bn])) = canonAbs (ds ++ [bn]) :=
    normpath_canonAbs _ hds
  have hnout : normpath (canonAbs ocs) = canonAbs ocs := normpath_canonAbs _ hocs
  have hname : laterArchiveName (normpath (canonAbs (ds ++ [bn]))) ts =
      bn ++ '_' :: ts ++ ".zip".toList := by
    rw [hnsrc, laterArchiveName, rstripSep_canonAbs _ hds (by simp),
      basename_canonAbs ds bn hbnval.2.1]
  have hsepname : sep ∉ bn ++ '_' :: ts ++ ".zip".toList := by
    rw [← hname]
    exact sep_not_mem_laterArchiveName _ ts hts
  have hvname : validName (bn ++ '_' :: ts ++ ".zip".toList) = true := by
    rw [← hname]
    exact validName_laterArchiveName _ ts hts
  have habs : laterArchiveAbs cwd (normpath (canonAbs ocs))
      (normpath (canonAbs (ds ++ [bn]))) ts =
      canonAbs (ocs ++ [bn ++ '_' :: ts ++ ".zip".toList]) := by
    rw [laterArchiveAbs, hname, hnout,
      joinPath_canonAbs ocs _ hocs hsepname ((validName_iff _).mp hvname).1]
    exact abspath_canonAbs cwd _ (validComps_snoc ocs _ hocs hvname)
  have houtAbs : abspath cwd (normpath (canonAbs ocs)) = canonAbs ocs := by
    rw [hnout]
    exact abspath_canonAbs cwd ocs hocs
  refine ⟨?_, hname, habs, ?_, ?_, ?_, ?_⟩
  · exact doArchiveLater_raised_no_makedirs cwd fs tree _ _ depth ts none (by simp)
  · rw [doArchiveLater_eq]
    by_cases hdir : fs.hasDir (abspath cwd (normpath (canonAbs ocs))) = true
    · rw [if_pos hdir,
        afterMakedirsLater_ok cwd fs tree (normpath (canonAbs (ds ++ [bn])))
          (normpath (canonAbs ocs)) depth ts none _ _
          (tryLater_none cwd fs tree (normpath (canonAbs (ds ++ [bn]))) depth _ hd)]
      show (fs.addFile (laterArchiveAbs cwd (normpath (canonAbs ocs))
          (normpath (canonAbs (ds ++ [bn]))) ts)).hasFile
        (canonAbs (ocs ++ [bn ++ '_' :: ts ++ ".zip".toList])) = true
      rw [← habs]
      exact addFile_hasFile_self fs _
    · rw [if_neg hdir, if_neg (by simp),
        afterMakedirsLater_ok cwd _ tree (normpath (canonAbs (ds ++ [bn])))
          (normpath (canonAbs ocs)) depth ts none _ _
          (tryLater_none cwd _ tree (normpath (canonAbs (ds ++ [bn]))) depth _ hd)]
      show ((fs.addDir (abspath cwd (normpath (canonAbs ocs)))).addFile
          (laterArchiveAbs cwd (normpath (canonAbs ocs))
            (normpath (canonAbs (ds ++ [bn]))) ts)).hasFile
        (canonAbs (ocs ++ [bn ++ '_' :: ts ++ ".zip".toList])) = true
      rw [← habs]
      exact addFile_hasFile_self _ _
  · rw [doArchiveLater_eq]
    by_cases hdir : fs.hasDir (abspath cwd (normpath (canonAbs ocs))) = true
    · rw [if_pos hdir,
        afterMakedirsLater_ok cwd fs tree (normpath (canonAbs (ds ++ [bn])))
          (normpath (canonAbs ocs)) depth ts none _ _
          (tryLater_none cwd fs tree (normpath (canonAbs (ds ++ [bn]))) depth _ hd)]
      show (fs.addFile (laterArchiveAbs cwd (normpath (canonAbs ocs))
          (normpath (canonAbs (ds ++ [bn]))) ts)).hasDir (canonAbs ocs) = true
      rw [hasDir_addFile]
      rw [houtAbs] at hdir
      exact hdir
    · rw [if_neg hdir, if_neg (by simp),
        afterMakedirsLater_ok cwd _ tree (normpath (canonAbs (ds ++ [bn])))
          (normpath (canonAbs ocs)) depth ts none _ _
          (tryLater_none cwd _ tree (normpath (canonAbs (ds ++ [bn]))) depth _ hd)]
      show ((fs.addDir (abspath cwd (normpath (canonAbs ocs)))).addFile
          (laterArchiveAbs cwd (normpath (canonAbs ocs))
            (normpath (canonAbs (ds ++ [bn]))) ts)).hasDir (canonAbs ocs) = true
      rw [hasDir_addFile, houtAbs]
      exact addDir_hasDir_self fs _
  · exact dirname_canonAbs_snoc ocs _ hocs hsepname
  · exact basename_canonAbs ocs _ hsepname

/-- Claim C6 witness: archiving `/d/s` into absent output directory `/o`
with timestamp `7` creates `/o` and the file `/o/s_7.zip` inside it. -/
theorem claim_C6_witness :
    (doArchiveLater sampleCwd sampleFS sampleTree (canonAbs [['d'], ['s']])
        (canonAbs [['o']]) 2 ['7'] none).fs.hasFile
      (canonAbs ([['o']] ++ [['s'] ++ '_' :: ['7'] ++ ".zip".toList])) = true ∧
    (doArchiveLater sampleCwd sampleFS sampleTree (canonAbs [['d'], ['s']])
        (canonAbs [['o']]) 2 ['7'] none).fs.hasDir (canonAbs [['o']]) = true :=
  ⟨(claim_C6 sampleCwd [['d']] ['s'] [['o']] sampleFS sampleTree 2 ['7'] (by decide)
      (by decide) (by decide) (by decide)).2.2.2.1,
    (claim_C6 sampleCwd [['d']] ['s'] [['o']] sampleFS sampleTree 2 ['7'] (by decide)
      (by decide) (by decide) (by decide)).2.2.2.2.1⟩

/-- Claim C1 (confirmed): for every well-formed source tree and max_depth ≥ 1
(source path given in canonical absolute form below the filesystem root), the
archive written by do_archive — in both variants — contains exactly the
regular files whose relative depth below the source root is strictly less
than max_depth, each exactly once, with entry name equal to the
slash-joined path relative to the source root; in particular every file
directly inside the source root is included. -/
theorem claim_C1 (cwd : Str) (fs : FS) (tree : DirTree) (scs : List Str)
    (outRaw : Str) (depth : Int) (ts : Str)
    (hv : validComps scs = true) (hne : scs ≠ []) (hw : wfDir tree = true)
    (hd : 1 ≤ depth) :
    ((doArchiveLater cwd fs tree (canonAbs scs) outRaw depth ts none).archived).map
        Prod.snd =
      ((filesUnder [] tree).filter (fun f => ((f.length : Int) - 1) < depth)).map
        joinSep ∧
    ((doArchiveEarlier cwd fs tree (canonAbs scs) depth none).archived).map Prod.snd =
      ((filesUnder [] tree).filter (fun f => ((f.length : Int) - 1) < depth)).map
        joinSep ∧
    (((filesUnder [] tree).filter (fun f => ((f.length : Int) - 1) < depth)).map
      joinSep).Nodup ∧
    (∀ nm ∈ topFiles tree,
      nm ∈ ((doArchiveLater cwd fs tree (canonAbs scs) outRaw depth ts
        none).archived).map Prod.snd) := by
  have hnorm : normpath (canonAbs scs) = canonAbs scs := normpath_canonAbs scs hv
  have hloop : archiveLoop cwd depth (canonAbs scs) (canonAbs scs) tree =
      ((filesUnder [] tree).filter (fun f => ((f.length : Int) - 1) < depth)).map
        (fun f => (canonAbs (scs ++ f), joinSep f)) := by
    have h := archiveLoop_spec cwd depth scs hv hne tree [] (by decide) hw
    rwa [List.append_nil] at h
  have hmain : (archiveLoop cwd depth (canonAbs scs) (canonAbs scs) tree).map
      Prod.snd =
      ((filesUnder [] tree).filter (fun f => ((f.length : Int) - 1) < depth)).map
        joinSep := by
    rw [hloop, List.map_map]
    exact List.map_congr_left (fun f _ => rfl)
  refine ⟨?_, ?_, arcnames_nodup tree hw _, ?_⟩
  · rw [doArchiveLater_archived cwd fs tree _ outRaw depth ts hd, hnorm, hmain]
  · rw [doArchiveEarlier_success cwd fs tree _ depth hd]
    show (archiveLoop cwd depth (normpath (canonAbs scs)) (normpath (canonAbs scs))
      tree).map Prod.snd = _
    rw [hnorm, hmain]
  · intro nm hnm
    rw [doArchiveLater_archived cwd fs tree _ outRaw depth ts hd, hnorm, hmain]
    cases tree with
    | node files subdirs =>
      simp only [topFiles] at hnm
      apply List.mem_map.mpr
      refine ⟨[nm], ?_, by simp [joinSep]⟩
      apply List.mem_filter.mpr
      constructor
      · simp only [filesUnder]
        exact List.mem_append.mpr (Or.inl (List.mem_map.mpr ⟨nm, hnm, rfl⟩))
      · simp only [List.length_cons, List.length_nil, decide_eq_true_eq]
        push_cast
        omega

/-- Claim C1 witness: archiving the sample tree root/{a, s/{b, d/{c}}} below
/d/s with max_depth 2 yields exactly the entries a and s/b, once each. -/
theorem claim_C1_witness :
    ((doArchiveLater sampleCwd sampleFS sampleTree (canonAbs [['d'], ['s']])
        (canonAbs [['o']]) 2 ['7'] none).archived).map Prod.snd =
      ((filesUnder [] sampleTree).filter
        (fun f => ((f.length : Int) - 1) < 2)).map joinSep ∧
    ((doArchiveLater sampleCwd sampleFS sampleTree (canonAbs [['d'], ['s']])
        (canonAbs [['o']]) 2 ['7'] none).archived).map Prod.snd =
      [['a'], ['s', '/', 'b']] :=
  ⟨(claim_C1 sampleCwd sampleFS sampleTree [['d'], ['s']] (canonAbs [['o']]) 2 ['7']
      (by decide) (by decide) (by decide) (by decide)).1,
    by
      rw [(claim_C1 sampleCwd sampleFS sampleTree [['d'], ['s']] (canonAbs [['o']]) 2
        ['7'] (by decide) (by decide) (by decide) (by decide)).1]
      decide⟩

/-- Claim C4 counterexample: with max_depth 1 over the tree /s/{a/{f}}, the
walk still visits the directory `/s/a`, whose relative depth (separator
count of the path below the source root, as the code computes it) is
1 ≥ max_depth — refuting "the traversal never visits a subdirectory at
relative depth ≥ max_depth / such a subtree is never touched". -/
theorem claim_C4_counterexample :
    canonAbs [['s'], ['a']] ∈
      walkVisited 1 (canonAbs [['s']]) (canonAbs [['s']]) sampleShallowTree ∧
    1 ≤ countSep ((canonAbs [['s'], ['a']]).drop (canonAbs [['s']]).length) := by
  decide

/-- Claim C4 (amended): the walk yields exactly the directories of relative
depth at most max_depth — so no subdirectory at depth strictly greater than
max_depth is ever visited, while a directory at depth exactly max_depth is
still yielded (scanned) but pruned — and no file at depth ≥ max_depth
appears in the archive. -/
theorem claim_C4_amended (cwd : Str) (depth : Int) (scs : List Str) (tree : DirTree)
    (hv : validComps scs = true) (hne : scs ≠ []) (hw : wfDir tree = true)
    (hd : 1 ≤ depth) :
    walkVisited depth (canonAbs scs) (canonAbs scs) tree =
      ((dirsUnder [] tree).filter (fun d => ((d.length : Int)) ≤ depth)).map
        (fun d => canonAbs (scs ++ d)) ∧
    (∀ d ∈ dirsUnder [] tree, depth < (d.length : Int) →
      canonAbs (scs ++ d) ∉ walkVisited depth (canonAbs scs) (canonAbs scs) tree) ∧
    (archiveLoop cwd depth (canonAbs scs) (canonAbs scs) tree).map Prod.snd =
      ((filesUnder [] tree).filter (fun f => ((f.length : Int) - 1) < depth)).map
        joinSep := by
  have hvisit : walkVisited depth (canonAbs scs) (canonAbs scs) tree =
      ((dirsUnder [] tree).filter (fun d => ((d.length : Int)) ≤ depth)).map
        (fun d => canonAbs (scs ++ d)) := by
    have h := walkVisited_spec depth scs hv hne tree [] (by decide) hw
      (by simp only [List.length_nil]; omega)
    rwa [List.append_nil] at h
  refine ⟨hvisit, ?_, ?_⟩
  · intro d hdm hgt hmem
    rw [hvisit] at hmem
    rcases List.mem_map.mp hmem with ⟨d', hd', he⟩
    have hd'm := (List.mem_filter.mp hd').1
    have hd'len : ((d'.length : Int)) ≤ depth := by
      have h2 := (List.mem_filter.mp hd').2
      simpa using h2
    have hdv := dirsUnder_valid tree [] (by decide) hw d hdm
    have hd'v := dirsUnder_valid tree [] (by decide) hw d' hd'm
    have hj : joinSep (scs ++ d') = joinSep (scs ++ d) := by
      simp only [canonAbs] at he
      exact (List.cons_eq_cons.mp he).2
    have happ : scs ++ d' = scs ++ d :=
      joinSep_inj _ _ (validComps_append _ _ hv hd'v) (validComps_append _ _ hv hdv)
        (by simp [hne]) (by simp [hne]) hj
    have hdd : d' = d := List.append_cancel_left happ
    rw [hdd] at hd'len
    omega
  · have hloop : archiveLoop cwd depth (canonAbs scs) (canonAbs scs) tree =
        ((filesUnder [] tree).filter (fun f => ((f.length : Int) - 1) < depth)).map
          (fun f => (canonAbs (scs ++ f), joinSep f)) := by
      have h := archiveLoop_spec cwd depth scs hv hne tree [] (by decide) hw
      rwa [List.append_nil] at h
    rw [hloop, List.map_map]
    exact List.map_congr_left (fun f _ => rfl)

/-- Claim C4 witness: with max_depth 1 over /s/{a/{f}}, the visited
directories are exactly /s and /s/a (depth ≤ 1), and the archive holds no
file at depth ≥ 1. -/
theorem claim_C4_amended_witness :
    walkVisited 1 (canonAbs [['s']]) (canonAbs [['s']]) sampleShallowTree =
      ((dirsUnder [] sampleShallowTree).filter (fun d => ((d.length : Int)) ≤ 1)).map
        (fun d => canonAbs ([['s']] ++ d)) ∧
    (archiveLoop sampleCwd 1 (canonAbs [['s']]) (canonAbs [['s']])
        sampleShallowTree).map Prod.snd = [] :=
  ⟨(claim_C4_amended sampleCwd 1 [['s']] sampleShallowTree (by decide) (by decide)
      (by decide) (by decide)).1,
    by
      rw [(claim_C4_amended sampleCwd 1 [['s']] sampleShallowTree (by decide)
        (by decide) (by decide) (by decide)).2.2]
      decide⟩
